import Mathlib

/-!
Verification development for the `static-http-file` repository.

Strings and byte spans are modelled as `List Nat` (each element one byte);
machine integer operations (`u8` shifts and masks) are translated to `Nat`
division and remainder with explicit `% 256` where overflow matters.
Loops over indices in the Rust source are translated to structural
recursion over the remaining portion of the list.  Fallible operations
(panics, raw-pointer reads that may leave the allocation) are modelled
with `Option`, `none` standing for the abort/undefined case.

Definitions come first, theorems afterwards.
-/

/-- Byte list of an ASCII string. -/
def ascii (s : String) : List Nat := s.data.map Char.toNat

/-! ### Percent codec (src/urlencode.rs) -/

/-- Characters considered safe by the percent codec (src/urlencode.rs):
`A-Z a-z 0-9 - _ . ~`. -/
def isSafeByte (b : Nat) : Bool :=
  (65 ≤ b && b ≤ 90) || (97 ≤ b && b ≤ 122) || (48 ≤ b && b ≤ 57) ||
  b == 45 || b == 95 || b == 46 || b == 126

/-- Value of a hexadecimal digit byte (src/urlencode.rs, decode loop). -/
def hexVal (b : Nat) : Option Nat :=
  if 48 ≤ b && b ≤ 57 then some (b - 48)
  else if 65 ≤ b && b ≤ 70 then some (b - 65 + 10)
  else if 97 ≤ b && b ≤ 102 then some (b - 97 + 10)
  else none

/-- High hex digit emitted for a byte: `(b >> 4) & 0x0F` rendered as
`0-9` or `A-F` (src/urlencode.rs, encode loop). -/
def hexHi (b : Nat) : Nat :=
  let v := b / 16 % 16
  if v ≤ 9 then 48 + v else 65 + (v - 10)

/-- Low hex digit emitted for a byte: `b & 0x0F` rendered as `0-9` or `A-F`. -/
def hexLo (b : Nat) : Nat :=
  let v := b % 16
  if v ≤ 9 then 48 + v else 65 + (v - 10)

/-- One encoded triplet `%XX` for an unsafe byte. -/
def encTriplet (b : Nat) : List Nat := [37, hexHi b, hexLo b]

/-- Encoded bytes of a whole byte list, one `%XX` triplet per byte. -/
def encBytes (c : List Nat) : List Nat :=
  c.foldr (fun b acc => encTriplet b ++ acc) []

/-- Maximal leading run of safe bytes and the rest
(the first index scan of `urlencode_iter_fn`). -/
def safeSplit : List Nat → List Nat × List Nat
  | [] => ([], [])
  | b :: rest =>
    if isSafeByte b then
      let (a, r) := safeSplit rest
      (b :: a, r)
    else ([], b :: rest)

/-- Encoding loop of `urlencode_iter_fn`: emits `%XX` triplets for up to
four consecutive unsafe bytes (12 output bytes), stopping at end of input,
at a safe byte, or when the 12-byte buffer is full.  Returns the encoded
bytes accumulated so far and the unconsumed remainder. -/
def encodeChunk : List Nat → List Nat → List Nat × List Nat
  | [], enc => (enc, [])
  | b :: rest, enc =>
    let enc2 := enc ++ encTriplet b
    match rest with
    | [] => (enc2, [])
    | b2 :: _ =>
      if enc2.length == 12 || isSafeByte b2 then (enc2, rest)
      else encodeChunk rest enc2

/-- `urlencode_iter_fn` (src/urlencode.rs): one step of the streaming
encoder, returning the emitted chunk and the remaining input. -/
def urlencodeIter (s : List Nat) : List Nat × List Nat :=
  match s with
  | [] => ([], [])
  | _ :: _ =>
    if (safeSplit s).2.isEmpty then (s, [])
    else if ¬ (safeSplit s).1.isEmpty then ((safeSplit s).1, (safeSplit s).2)
    else encodeChunk s []

/-- `urlencode` followed by concatenation of the queued chunks: the full
percent-encoded byte string (src/urlencode.rs `urlencode_into`). -/
def urlencodeFull (s : List Nat) : List Nat :=
  if hs : s = [] then []
  else (urlencodeIter s).1 ++ urlencodeFull (urlencodeIter s).2
termination_by s.length
decreasing_by
  have hsplit : ∀ u : List Nat, (safeSplit u).1 ++ (safeSplit u).2 = u := by
    intro u
    induction u with
    | nil => rfl
    | cons b rest ih =>
      unfold safeSplit
      by_cases hb : isSafeByte b
      · simp only [hb, if_true]
        simpa using ih
      · simp [hb]
  have hchunk : ∀ (rem enc : List Nat), rem ≠ [] →
      (encodeChunk rem enc).2.length < rem.length := by
    intro rem
    induction rem with
    | nil => intro enc h; exact absurd rfl h
    | cons b rest ih =>
      intro enc _
      unfold encodeChunk
      cases rest with
      | nil => simp
      | cons b2 rest2 =>
        by_cases h12 : ((enc ++ encTriplet b).length == 12 || isSafeByte b2) = true
        · simp only [h12, if_true]
          simp [Nat.lt_succ_of_le]
        · simp only [h12, if_false]
          exact Nat.lt_trans (ih (enc ++ encTriplet b) (by simp)) (by simp)
  cases s with
  | nil => exact absurd rfl hs
  | cons b rest =>
    show (urlencodeIter (b :: rest)).2.length < (b :: rest).length
    rw [urlencodeIter]
    by_cases h1 : (safeSplit (b :: rest)).2.isEmpty
    · simp [h1]
    · simp only [h1, if_false]
      by_cases h2 : (safeSplit (b :: rest)).1.isEmpty = true
      · simp only [h2, not_true_eq_false, if_false]
        exact hchunk _ _ (by simp)
      · have hlen : (safeSplit (b :: rest)).1.length + (safeSplit (b :: rest)).2.length
            = (b :: rest).length := by
          rw [← List.length_append, hsplit]
        have h2' : (safeSplit (b :: rest)).1.length ≠ 0 := by
          cases hx : (safeSplit (b :: rest)).1 with
          | nil => rw [hx] at h2; simp at h2
          | cons x xs => simp [hx]
        simp only [h2, not_false_eq_true, if_true, Bool.false_eq_true, if_false]
        omega

/-- Leading run of non-`%` bytes and the rest
(the first index scan of `urldecode_iter_fn`). -/
def scanToPercent : List Nat → List Nat × List Nat
  | [] => ([], [])
  | b :: rest =>
    if b == 37 then ([], b :: rest)
    else
      let (a, r) := scanToPercent rest
      (b :: a, r)

/-- Decoding loop of `urldecode_iter_fn`: consumes consecutive valid
`%XX` triplets (at most 14 decoded bytes), stopping at end of input, an
invalid triplet, a non-`%` byte, or a full buffer. -/
def decodeChunk : List Nat → List Nat → List Nat × List Nat
  | p :: h :: l :: rest, dec =>
    match hexVal h, hexVal l with
    | some hv, some lv =>
      let dec2 := dec ++ [hv * 16 + lv]
      match rest with
      | r0 :: _ :: _ =>
        if r0 == 37 && dec2.length != 14 then decodeChunk rest dec2
        else (dec2, rest)
      | _ => (dec2, rest)
    | _, _ => (dec, p :: h :: l :: rest)
  | rem, dec => (dec, rem)

/-- `urldecode_iter_fn` (src/urlencode.rs): one step of the streaming
decoder; an empty first component on non-empty input signals a malformed
`%` sequence at the head. -/
def urldecodeIter (s : List Nat) : List Nat × List Nat :=
  match s with
  | [] => ([], [])
  | _ :: _ =>
    if (scanToPercent s).2.isEmpty then (s, [])
    else if ¬ (scanToPercent s).1.isEmpty then ((scanToPercent s).1, (scanToPercent s).2)
    else decodeChunk s []

/-- `urldecode` (src/urlencode.rs `urldecode` / `urldecode_into`): decodes
the whole input, concatenating delivered chunks; on a malformed `%`
sequence it stops with the chunks delivered so far and the undecoded
remainder. -/
def urldecodeFull (s : List Nat) : Except (List Nat × List Nat) (List Nat) :=
  if hs : s = [] then .ok []
  else
    if hd : (urldecodeIter s).1 = [] then .error ([], (urldecodeIter s).2)
    else
      match urldecodeFull (urldecodeIter s).2 with
      | .ok out => .ok ((urldecodeIter s).1 ++ out)
      | .error (dd, rr) => .error ((urldecodeIter s).1 ++ dd, rr)
termination_by s.length
decreasing_by
  have hsplit : ∀ u : List Nat, (scanToPercent u).1 ++ (scanToPercent u).2 = u := by
    intro u
    induction u with
    | nil => rfl
    | cons b rest ih =>
      unfold scanToPercent
      by_cases hb : b == 37
      · simp [hb]
      · simp only [hb, if_false]
        simpa using ih
  have hprog : ∀ (n : Nat) (rem dec : List Nat), rem.length ≤ n →
      decodeChunk rem dec = (dec, rem) ∨ (decodeChunk rem dec).2.length + 3 ≤ rem.length := by
    intro n
    induction n with
    | zero =>
      intro rem dec h
      have : rem = [] := List.length_eq_zero.mp (Nat.le_zero.mp h)
      subst this
      left; rfl
    | succ n ih =>
      intro rem dec h
      cases rem with
      | nil => left; rfl
      | cons p rem1 =>
        cases rem1 with
        | nil => left; rfl
        | cons h1 rem2 =>
          cases rem2 with
          | nil => left; rfl
          | cons l rest =>
            simp only [decodeChunk]
            cases hh : hexVal h1 with
            | none => left; rfl
            | some hv =>
              cases hl : hexVal l with
              | none => left; rfl
              | some lv =>
                simp only
                cases rest with
                | nil => right; simp
                | cons r0 rest1 =>
                  cases rest1 with
                  | nil => right; simp
                  | cons r1 rest2 =>
                    by_cases hcond : (r0 == 37 && (dec ++ [hv * 16 + lv]).length != 14) = true
                    · simp only [hcond, if_true]
                      have hlen : (r0 :: r1 :: rest2).length ≤ n := by
                        simp at h ⊢; omega
                      rcases ih (r0 :: r1 :: rest2) (dec ++ [hv * 16 + lv]) hlen with h1 | h1
                      · right; rw [h1]; simp
                      · right
                        refine le_trans h1 ?_
                        simp
                    · simp only [hcond, if_false]
                      right; simp
  cases s with
  | nil => exact absurd rfl hs
  | cons b rest =>
    rw [urldecodeIter] at hd ⊢
    by_cases h1 : (scanToPercent (b :: rest)).2.isEmpty
    · simp [h1]
    · simp only [h1, if_false] at hd ⊢
      by_cases h2 : (scanToPercent (b :: rest)).1.isEmpty = true
      · simp only [h2, not_true_eq_false, if_false] at hd ⊢
        rcases hprog (b :: rest).length (b :: rest) [] le_rfl with h3 | h3
        · rw [h3] at hd
          exact absurd rfl hd
        · simp only [List.length_cons, Bool.false_eq_true, if_false] at h3 ⊢
          omega
      · have hlen : (scanToPercent (b :: rest)).1.length + (scanToPercent (b :: rest)).2.length
            = (b :: rest).length := by
          rw [← List.length_append, hsplit]
        have h2' : (scanToPercent (b :: rest)).1.length ≠ 0 := by
          cases hx : (scanToPercent (b :: rest)).1 with
          | nil => rw [hx] at h2; simp at h2
          | cons x xs => simp [hx]
        simp only [h2, not_false_eq_true, if_true, Bool.false_eq_true, if_false]
        omega

/-- Reference percent-decoder, following the words of the spec: bytes are
passed through verbatim, except that a `%` must be followed by two valid
hex digits and decodes to that byte; otherwise decoding fails. -/
def specUrldecode : List Nat → Option (List Nat)
  | [] => some []
  | b :: rest =>
    if b == 37 then
      match rest with
      | h :: l :: rest2 =>
        match hexVal h, hexVal l with
        | some hv, some lv => (specUrldecode rest2).map (fun t => (hv * 16 + lv) :: t)
        | _, _ => none
      | _ => none
    else (specUrldecode rest).map (fun t => b :: t)

/-- The claim's notion of a malformed position: byte `p` is a `%` that is
not followed by two valid hexadecimal digits. -/
def malformedAt (s : List Nat) (p : Nat) : Bool :=
  (s.get? p == some 37) &&
    !(match s.get? (p + 1), s.get? (p + 2) with
      | some h, some l => (hexVal h).isSome && (hexVal l).isSome
      | _, _ => false)

/-- The head of the list is a `%` sequence the decode loop rejects. -/
def headInvalid (s : List Nat) : Bool :=
  match s with
  | _ :: h :: l :: _ => !((hexVal h).isSome && (hexVal l).isSome)
  | _ => true

/-- A byte string made of consecutive valid `%XX` triplets, together with
the bytes it decodes to. -/
inductive ValidTriplets : List Nat → List Nat → Prop
  | nil : ValidTriplets [] []
  | cons {h l p v hv lv} : hexVal h = some hv → hexVal l = some lv →
      ValidTriplets p v → ValidTriplets (37 :: h :: l :: p) ((hv * 16 + lv) :: v)

/-! ### Base64url encoder and ETag engine (src/const_b64.rs, src/const_etag.rs, src/std/mod.rs) -/

/-- The base64url alphabet table (src/const_b64.rs `BASE64URL`). -/
def BASE64URL : List Nat :=
  ascii "ABCDEFGHIJKLMNOPQRSTUVWXYZabcdefghijklmnopqrstuvwxyz0123456789-_"

/-- Table lookup `BASE64URL[i]`. -/
def b64char (i : Nat) : Nat := BASE64URL.getD i 0

/-- The characters produced by the encoding loop of `b64url_const`:
3-byte groups yield 4 characters; a 1- or 2-byte remainder yields 2 or 3
characters (u8 shifts and masks written as division and remainder). -/
def b64chunks : List Nat → List Nat
  | b0 :: b1 :: b2 :: rest =>
    b64char (b0 / 4) :: b64char (b0 % 4 * 16 + b1 / 16) ::
      b64char (b1 % 16 * 4 + b2 / 64) :: b64char (b2 % 64) :: b64chunks rest
  | [b0] => [b64char (b0 / 4), b64char (b0 % 4 * 16)]
  | [b0, b1] => [b64char (b0 / 4), b64char (b0 % 4 * 16 + b1 / 16), b64char (b1 % 16 * 4)]
  | [] => []

/-- Overwrite the bytes of `trg` starting at position `o` with `xs`
(the effect of the buffer writes in `b64url_const`). -/
def spliceAt (trg : List Nat) (o : Nat) (xs : List Nat) : List Nat :=
  trg.take o ++ xs ++ trg.drop (o + xs.length)

/-- `b64url_const` (src/const_b64.rs): `none` models the panics (offset too
large, output buffer too small, or a buffer write out of range). -/
def b64urlConst (data trg : List Nat) (offset : Nat) : Option (List Nat × Nat) :=
  if offset ≥ trg.length then none
  else if trg.length - offset < 4 * data.length / 3 then none
  else if offset + (b64chunks data).length > trg.length then none
  else some (spliceAt trg offset (b64chunks data), offset + (b64chunks data).length)

/-- Big-endian bytes of a 64-bit hash value (`u64::to_be_bytes`). -/
def toBeBytes64 (h : Nat) : List Nat :=
  [h / 2 ^ 56 % 256, h / 2 ^ 48 % 256, h / 2 ^ 40 % 256, h / 2 ^ 32 % 256,
   h / 2 ^ 24 % 256, h / 2 ^ 16 % 256, h / 2 ^ 8 % 256, h % 256]

/-- `compute_etag` (src/const_etag.rs), parameterized by the external
64-bit hash (`xxhash_rust::const_xxh3::xxh3_64`, an out-of-scope
dependency): render the 8 big-endian hash bytes through the base64url
encoder into a 12-byte buffer at offset 1, then set both end bytes to the
quote character.  `none` models the panics. -/
def compute_etag (xxh : List Nat → Nat) (data : List Nat) : Option (List Nat) :=
  match b64urlConst (toBeBytes64 (xxh data)) (List.replicate 12 0) 1 with
  | none => none
  | some (etag, n) => if n ≠ 12 then none else some ((etag.set 0 34).set 11 34)

/-- `compute_etag_nonconst` (src/std/mod.rs), parameterized by the same
external 64-bit hash (`xxhash_rust::xxh3::xxh3_64`): identical
post-processing of the hash bytes. -/
def compute_etag_nonconst (xxh : List Nat → Nat) (data : List Nat) : Option (List Nat) :=
  match b64urlConst (toBeBytes64 (xxh data)) (List.replicate 12 0) 1 with
  | none => none
  | some (etag, n) => if n ≠ 12 then none else some ((etag.set 0 34).set 11 34)

/-- A byte of the base64url alphabet `A-Z a-z 0-9 - _`. -/
def isB64urlChar (c : Nat) : Bool :=
  (65 ≤ c && c ≤ 90) || (97 ≤ c && c ≤ 122) || (48 ≤ c && c ≤ 57) || c == 45 || c == 95

/-! ### ETag string forms (src/traits.rs `etag_str`,
src/const_http_file.rs and src/shared_http_file.rs `const_etag_str`) -/

/-- Trait-default `HttpFile::etag_str` (src/traits.rs): strip the quotes
only when the length exceeds 2 and both the leading and trailing byte are
the quote character. -/
def etagStr (e : List Nat) : List Nat :=
  if decide (2 < e.length) && (e.head? == some 34) && (e.getLast? == some 34) then
    (e.drop 1).dropLast
  else e

/-- `const_etag_str` of `ConstHttpFile` and `SharedHttpFile`: return the
etag unchanged when it is empty or does not start with a quote; otherwise
slice bytes `1..len-1`, panicking (`none`) when the slice range is
invalid (length 1). -/
def constEtagStr (e : List Nat) : Option (List Nat) :=
  if e.isEmpty || !(e.head? == some 34) then some e
  else if 2 ≤ e.length then some ((e.drop 1).take (e.length - 2))
  else none

/-! ### Cache-busting rewriters (src/traits.rs and src/http_1.rs,
`cachebust_uri` and `cachebust_suffix`) -/

/-- Split a byte string on every occurrence of a separator byte
(Rust `str::split`): empty fields are kept, the empty string yields one
empty field. -/
def splitOnB (sep : Nat) : List Nat → List (List Nat)
  | [] => [[]]
  | b :: rest =>
    if b == sep then [] :: splitOnB sep rest
    else
      match splitOnB sep rest with
      | [] => [[b]]
      | h :: t => (b :: h) :: t

/-- Split at the first occurrence of a separator byte
(Rust `str::splitn(2, sep)`): the part before it, and the part after it
when the separator occurs. -/
def splitFirst (sep : Nat) : List Nat → List Nat × Option (List Nat)
  | [] => ([], none)
  | b :: rest =>
    if b == sep then ([], some rest)
    else
      let (k, v) := splitFirst sep rest
      (b :: k, v)

/-- The `find_map` of `cachebust_uri`: value of the first `&`-separated
field whose part before the first `=` equals the key and that has an `=`. -/
def queryFindVal (key q : List Nat) : Option (List Nat) :=
  (splitOnB 38 q).findSome? fun p =>
    let kv := splitFirst 61 p
    if kv.1 = key then kv.2 else none

/-- The re-emission filter of `cachebust_uri`: a field is kept unless it
starts with the key and either is no longer than the key or continues
with `=`. -/
def emitPair (key x : List Nat) : Bool :=
  !(key.isPrefixOf x) || (decide (key.length < x.length) && !((x.drop key.length).head? == some 61))

/-- `cachebust_uri` (src/traits.rs lines 248-312): returns the `Location`
of the 307 redirect when the request URI must be rewritten, `none` when
the query already carries the unquoted etag under the key. -/
def cachebustUriLoc (etagS key path : List Nat) (query : Option (List Nat)) : Option (List Nat) :=
  match query with
  | some q =>
    let qv := queryFindVal key q
    if qv == some etagS then none
    else
      some (path ++ [63] ++ key ++ [61] ++ etagS ++
        (if qv.isSome then
          (splitOnB 38 q).foldl (fun acc x => if emitPair key x then acc ++ [38] ++ x else acc) []
        else if !q.isEmpty then [38] ++ q else []))
  | none => some (path ++ [63] ++ key ++ [61] ++ etagS)

/-- `file_ext` scan (src/const_mime.rs): walk the path from its end;
a `.` yields the bytes after it, a path separator (`/` or `\`) or the
start of the string yields no extension. -/
def fileExtGo : List Nat → List Nat → Option (List Nat)
  | [], _ => none
  | b :: rest, acc =>
    if b == 46 then some acc
    else if b == 47 || b == 92 then none
    else fileExtGo rest (b :: acc)

/-- `file_ext` (src/const_mime.rs). -/
def fileExt (path : List Nat) : Option (List Nat) := fileExtGo path.reverse []

/-- Index of the last occurrence of a byte (Rust `str::rfind` for an
ASCII character). -/
def rfindByte : List Nat → Nat → Option Nat
  | [], _ => none
  | b :: rest, c =>
    match rfindByte rest c with
    | some i => some (i + 1)
    | none => if b == c then some 0 else none

/-- The stale-tail strip of `cachebust_suffix`: truncate at the rightmost
separator when it lies strictly after the last `/` (position 0 when there
is none), then append the separator. -/
def stripSep (basename : List Nat) (s : Nat) : List Nat :=
  (match rfindByte basename s with
   | some p => if (rfindByte basename 47).getD 0 < p then basename.take p else basename
   | none => basename) ++ [s]

/-- The no-rewrite test of `cachebust_suffix` applied to a byte string:
it ends with the etag, is strictly longer, and the byte before the etag
is the separator (no byte condition when no separator is configured). -/
def suffixNoRewrite (etagS : List Nat) (sep : Option Nat) (s : List Nat) : Bool :=
  if etagS.isSuffixOf s && decide (etagS.length < s.length) then
    match sep with
    | some c => s.getD (s.length - etagS.length - 1) 0 == c
    | none => true
  else false

/-- `cachebust_suffix` (src/traits.rs lines 315-382): returns the
`Location` of the 307 redirect when the path must be rewritten, `none`
when the path or its basename already ends with the separator-prefixed
etag. -/
def cachebustSuffixLoc (etagS : List Nat) (sep : Option Nat) (path : List Nat) :
    Option (List Nat) :=
  if suffixNoRewrite etagS sep path then none
  else
    match fileExt path with
    | some e =>
      let basename := path.take (path.length - e.length - 1)
      if suffixNoRewrite etagS sep basename then none
      else
        some ((match sep with
          | some c => stripSep basename c
          | none => basename) ++ etagS ++ [46] ++ e)
    | none =>
      some ((match sep with
        | some c => stripSep path c
        | none => path) ++ etagS)

/-! ### MIME magic-byte tables (src/const_mime.rs) -/

/-- Offset rule of a magic-byte entry: the pattern must start at a fixed
offset, or may start anywhere before a bound. -/
inductive MagicOffset where
  | atOff (o : Nat)
  | before (o : Nat)

/-- Outcome of a magic-byte entry: a terminal MIME string, or a nested
table with an optional fallback MIME. -/
inductive MagicTy where
  | mime (m : String)
  | specialized (fallback : Option String) (sub : List (MagicOffset × List Nat × MagicTy))

/-- `bytes_matches` (src/const_mime.rs): raw-pointer comparison of the
pattern against the input starting at `pos`; `none` models a read outside
the input span (undefined behaviour in the source). -/
def bytesMatchesO (data : List Nat) (pos : Nat) : List Nat → Option Bool
  | [] => some true
  | b :: rest =>
    match data.get? pos with
    | none => none
    | some x => if x ≠ b then some false else bytesMatchesO data (pos + 1) rest

/-- The forward scan of the `Before` arm of `lookup_magic`: try the
pattern at `j`, stopping only when `j + 1 = mx` after a failed attempt.
`none` models an out-of-bounds read or a scan that never terminates
(fuel exhaustion; the caller passes more fuel than any terminating scan
can use). -/
def scanBefore (data pat : List Nat) (mx : Nat) : Nat → Nat → Option Bool
  | 0, _ => none
  | fuel + 1, j =>
    match bytesMatchesO data j pat with
    | none => none
    | some true => some true
    | some false => if j + 1 ≠ mx then scanBefore data pat mx fuel (j + 1) else some false

/-- `lookup_magic` (src/const_mime.rs): first matching entry wins; a
specialized entry recurses and falls back to its own MIME when the nested
table yields nothing.  The outer `none` propagates undefined behaviour of
the scan.  The fuel argument only makes the recursion structural: each
step (next entry, nested table) consumes one unit, and the wrapper below
passes far more fuel than the static tables can consume, so exhaustion
(`none`) is unreachable there. -/
def lookupMagicGo : Nat → List (MagicOffset × List Nat × MagicTy) → List Nat →
    Option (Option String)
  | 0, _, _ => none
  | _ + 1, [], _ => some none
  | fuel + 1, (off, pat, ty) :: rest, data =>
    let matched : Option Bool :=
      match off with
      | .atOff o =>
        if o + pat.length > data.length then some false
        else bytesMatchesO data o pat
      | .before o =>
        if pat.length > data.length then some false
        else scanBefore data pat (min o (data.length - pat.length)) (data.length + 2) 0
    match matched with
    | none => none
    | some false => lookupMagicGo fuel rest data
    | some true =>
      match ty with
      | .mime m => some (some m)
      | .specialized fb sub =>
        match lookupMagicGo fuel sub data with
        | none => none
        | some (some r) => some (some r)
        | some none => some fb

/-- `lookup_magic` applied with enough fuel for the static tables. -/
def lookupMagicO (magics : List (MagicOffset × List Nat × MagicTy)) (data : List Nat) :
    Option (Option String) :=
  lookupMagicGo 100 magics data

/-- The `FTYP` nested table (src/const_mime.rs). -/
def FTYP : List (MagicOffset × List Nat × MagicTy) :=
  [(.atOff 4, ascii "avif", .mime "image/avif"),
   (.atOff 4, ascii "heic", .mime "image/heic"),
   (.atOff 4, ascii "isom", .mime "video/mp4"),
   (.atOff 4, ascii "mp41", .mime "video/mp4"),
   (.atOff 4, ascii "mp42", .mime "video/mp4"),
   (.atOff 4, ascii "mmp4", .mime "video/mp4"),
   (.atOff 4, ascii "M4A", .mime "audio/mp4")]

/-- The `RIFF` nested table (src/const_mime.rs). -/
def RIFF : List (MagicOffset × List Nat × MagicTy) :=
  [(.atOff 4, ascii "AVI ", .mime "video/x-msvideo"),
   (.atOff 4, ascii "CDDA", .mime "audio/aiff"),
   (.atOff 4, ascii "WAVE", .mime "audio/wav"),
   (.atOff 4, ascii "WEBP", .mime "image/webp")]

/-- The `XML` nested table (src/const_mime.rs). -/
def XML : List (MagicOffset × List Nat × MagicTy) :=
  [(.before 46, ascii "<!DOCTYPE html", .mime "application/xhtml+xml"),
   (.before 46, ascii "<!DOCTYPE svg", .mime "image/svg+xml"),
   (.before 120, ascii "xmlns=\"http://www.w3.org/1999/html\"", .mime "application/xhtml+xml"),
   (.before 120, ascii "xmlns=\"http://www.w3.org/2000/svg\"", .mime "image/svg+xml"),
   (.before 46, ascii "<html", .mime "application/xhtml+xml"),
   (.before 46, ascii "<svg", .mime "image/svg+xml")]

/-- The top-level `MAGICS` table (src/const_mime.rs). -/
def MAGICS : List (MagicOffset × List Nat × MagicTy) :=
  [(.atOff 0, [0, 0, 1, 186], .mime "video/mpeg"),
   (.atOff 0, [0, 0, 1, 187], .mime "video/mpeg"),
   (.atOff 0, 0 :: ascii "asm", .mime "text/x-asm"),
   (.atOff 0, [26, 69, 223, 163], .mime "video/webm"),
   (.atOff 0, [31, 139, 8], .mime "application/x-gzip"),
   (.atOff 0, ascii "#!/bin/bash" ++ [10], .mime "application/x-sh"),
   (.atOff 0, ascii "#!/bin/sh" ++ [10], .mime "application/x-sh"),
   (.atOff 0, ascii "7z" ++ [188, 175, 39, 28], .mime "application/x-7z-compressed"),
   (.atOff 0, ascii "<?xml", .specialized (some "text/xml") XML),
   (.atOff 0, ascii "<!DOCTYPE html", .mime "text/html"),
   (.atOff 0, ascii "<html", .mime "text/html"),
   (.atOff 0, ascii "<svg", .mime "image/svg+xml"),
   (.atOff 0, ascii "BZh", .mime "application/x-bzip2"),
   (.atOff 0, ascii "GIF87a", .mime "image/gif"),
   (.atOff 0, ascii "GIF89a", .mime "image/gif"),
   (.atOff 0, ascii "I I", .mime "image/tiff"),
   (.atOff 0, ascii "ID3", .mime "audio/mp3"),
   (.atOff 0, ascii "II*" ++ [0], .mime "image/tiff"),
   (.atOff 0, ascii "MM" ++ [0] ++ ascii "*", .mime "image/tiff"),
   (.atOff 0, ascii "MM" ++ [0] ++ ascii "+", .mime "image/tiff"),
   (.atOff 0, ascii "MThd", .mime "audio/midi"),
   (.atOff 0, ascii "OggS" ++ [0, 2, 0, 0, 0, 0, 0, 0, 0, 0], .mime "application/ogg"),
   (.atOff 0, ascii "PK" ++ [3, 4], .mime "application/ogg"),
   (.atOff 0, ascii "RIFF", .specialized none RIFF),
   (.atOff 0, ascii "Rar!" ++ [26, 7], .mime "application/vnd.rar"),
   (.atOff 0, ascii "gimp xcf ", .mime "image/x-xcf"),
   (.atOff 0, ascii "icns", .mime "image/x-icns"),
   (.atOff 0, ascii "true" ++ [0], .mime "font/ttf"),
   (.atOff 0, ascii "wOFF", .mime "font/woff"),
   (.atOff 0, ascii "wOF2", .mime "font/woff2"),
   (.atOff 0, ascii "%PDF-", .mime "application/pdf"),
   (.atOff 0, ascii "%PNG" ++ [13, 10, 26, 10], .mime "image/png"),
   (.atOff 0, [255, 216], .mime "image/jpeg"),
   (.atOff 4, ascii "ftyp", .specialized none FTYP),
   (.atOff 4, ascii "moov", .mime "video/quicktime"),
   (.atOff 257, ascii "ustar", .mime "application/x-tar")]

/-- `detect_mime_type_magic` (src/const_mime.rs). -/
def detectMimeTypeMagicO (data : List Nat) : Option (Option String) :=
  if data.length ≠ 0 then lookupMagicO MAGICS data else some none

/-! ### Conditional-response negotiator (src/traits.rs and src/http_1.rs) -/

/-- Response header names used by the negotiator. -/
inductive HeaderName where
  | contentType
  | etagHeader
  | cacheControl
  | allow
  | location
deriving DecidableEq, Repr

/-- `CacheBusting` (src/lib.rs / src/traits.rs). -/
inductive CacheBusting where
  | none
  | query (key : List Nat)
  | suffix (sep : Option Nat)
deriving DecidableEq, Repr

/-- Request methods distinguished by the negotiator. -/
inductive Method where
  | GET
  | HEAD
  | OPTIONS
  | other (name : List Nat)
deriving DecidableEq, Repr

/-- A file entity as seen by the negotiator: content type, data, quoted
etag, and cache-busting mode. -/
structure HttpFileModel where
  contentType : List Nat
  fileData : List Nat
  etag : List Nat
  cacheBusting : CacheBusting
deriving DecidableEq, Repr

/-- The request attributes the negotiator consumes: method, URI path,
optional query string, and the `If-None-Match` value when the header is
present and its bytes convert to a string. -/
structure RequestModel where
  method : Method
  path : List Nat
  query : Option (List Nat)
  ifNoneMatch : Option (List Nat)
deriving DecidableEq, Repr

/-- A produced response: status, headers in insertion order, body. -/
structure HttpResponse where
  status : Nat
  headers : List (HeaderName × List Nat)
  body : List Nat
deriving DecidableEq, Repr

/-- The `Allow` header value. -/
def allowValue : List Nat := ascii "GET, HEAD, OPTIONS"

/-- `Cache-Control` for cache-busted files. -/
def ccImmutable : List Nat := ascii "public, max-age=31536000, immutable"

/-- `Cache-Control` for files without cache busting. -/
def ccMustRevalidate : List Nat := ascii "public, max-age=0, must-revalidate"

/-- `response_headers` (src/traits.rs lines 218-239): append
`Content-Type`, `ETag`, and the mode-dependent `Cache-Control` to the
builder's headers. -/
def responseHeaders (f : HttpFileModel) (hs : List (HeaderName × List Nat)) :
    List (HeaderName × List Nat) :=
  (hs ++ [(HeaderName.contentType, f.contentType), (HeaderName.etagHeader, f.etag)]) ++
    [(HeaderName.cacheControl,
      if f.cacheBusting ≠ CacheBusting.none then ccImmutable else ccMustRevalidate)]

/-- A byte Rust's `char::is_whitespace` strips within header values
(`\t \n \v \f \r` and space). -/
def isWsByte (b : Nat) : Bool := b == 32 || (9 ≤ b && b ≤ 13)

/-- Rust `str::trim` on a header-value byte string. -/
def trimBytes (l : List Nat) : List Nat :=
  ((l.dropWhile isWsByte).reverse.dropWhile isWsByte).reverse

/-- The `If-None-Match` test of `respond_guard`: split on `,`, trim each
token, match `*` or the full quoted etag. -/
def inmMatches (inm : Option (List Nat)) (etagV : List Nat) : Bool :=
  match inm with
  | Option.none => false
  | Option.some v => (splitOnB 44 v).any fun t => trimBytes t == [42] || trimBytes t == etagV

/-- The cache-busting step of `respond_guard`: no check in mode `None`,
otherwise the matching rewriter on the request URI. -/
def cachebustCheck (f : HttpFileModel) (req : RequestModel) : Option (List Nat) :=
  match f.cacheBusting with
  | CacheBusting.none => Option.none
  | CacheBusting.query key => cachebustUriLoc (etagStr f.etag) key req.path req.query
  | CacheBusting.suffix sep => cachebustSuffixLoc (etagStr f.etag) sep req.path

/-- Result of `respond_guard`: an early response (the `Err` arm), or the
assembled headers for a 200 with body (the `Ok` arm). -/
inductive GuardOutcome where
  | early (r : HttpResponse)
  | proceed (hs : List (HeaderName × List Nat))
deriving DecidableEq, Repr

/-- `respond_guard` (src/traits.rs lines 143-196): method gate, then
cache-busting check, then header assembly, OPTIONS short-circuit,
`If-None-Match` conditional, and the HEAD/GET split. -/
def respondGuard (f : HttpFileModel) (req : RequestModel) : GuardOutcome :=
  if req.method ≠ Method.HEAD ∧ req.method ≠ Method.OPTIONS ∧ req.method ≠ Method.GET then
    GuardOutcome.early ⟨405, [(HeaderName.allow, allowValue)], []⟩
  else
    match cachebustCheck f req with
    | Option.some loc => GuardOutcome.early ⟨307, [(HeaderName.location, loc)], []⟩
    | Option.none =>
      let hs := responseHeaders f []
      if req.method = Method.OPTIONS then
        GuardOutcome.early ⟨204, hs ++ [(HeaderName.allow, allowValue)], []⟩
      else if inmMatches req.ifNoneMatch f.etag then
        GuardOutcome.early ⟨304, hs, []⟩
      else if req.method = Method.HEAD then
        GuardOutcome.early ⟨200, hs, []⟩
      else
        GuardOutcome.proceed hs

/-- `respond` (src/traits.rs): a proceed outcome becomes a 200 carrying
the file data. -/
def respond (f : HttpFileModel) (req : RequestModel) : HttpResponse :=
  match respondGuard f req with
  | GuardOutcome.early r => r
  | GuardOutcome.proceed hs => ⟨200, hs, f.fileData⟩

/-- A `ConstHttpFile` (src/const_http_file.rs) as a file entity: it does
not override `HttpFile::cache_busting`, so the trait default
`CacheBusting::None` applies. -/
def constHttpFile (mime dataBytes etagV : List Nat) : HttpFileModel :=
  ⟨mime, dataBytes, etagV, CacheBusting.none⟩

/-! ### Claim-side definitions (stated from the spec's words, to be
compared with the source embeddings) -/

/-- Query rewriter as claim C3 states it: no rewrite when the query
contains the key with the fingerprint as value; otherwise `key=etag`
first, followed by all other original parameters re-emitted verbatim
except any other occurrence of the key. -/
def claimQueryLoc (etagS key path : List Nat) (query : Option (List Nat)) : Option (List Nat) :=
  match query with
  | Option.none => some (path ++ [63] ++ key ++ [61] ++ etagS)
  | Option.some q =>
    let pairs := splitOnB 38 q
    if pairs.any (fun p => splitFirst 61 p == (key, some etagS)) then Option.none
    else
      some (path ++ [63] ++ key ++ [61] ++ etagS ++
        (pairs.filter fun p => (splitFirst 61 p).1 ≠ key).foldl
          (fun acc x => acc ++ [38] ++ x) [])

/-- Query rewriter as amended: the first `=`-carrying occurrence of the
key decides whether a rewrite happens; occurrences of the key are removed
from the re-emitted parameters only when such an occurrence exists,
otherwise the whole original query (a valueless occurrence of the key
included) is appended verbatim. -/
def claimQueryLocAmended (etagS key path : List Nat) (query : Option (List Nat)) :
    Option (List Nat) :=
  match query with
  | Option.none => some (path ++ [63] ++ key ++ [61] ++ etagS)
  | Option.some q =>
    let pairs := splitOnB 38 q
    let qv := pairs.findSome? fun p =>
      let kv := splitFirst 61 p
      if kv.1 = key then kv.2 else Option.none
    if qv == some etagS then Option.none
    else
      some (path ++ [63] ++ key ++ [61] ++ etagS ++
        (match qv with
         | Option.some _ =>
           (pairs.filter fun x => !(x == key || (key ++ [61]).isPrefixOf x)).foldl
             (fun acc x => acc ++ [38] ++ x) []
         | Option.none => if q.isEmpty then [] else [38] ++ q))

/-- The no-rewrite condition as claim C4 states it: the byte string ends
with the fingerprint preceded by the separator byte, or with no
configured separator the fingerprint is the exact tail. -/
def claimSuffixOk (etagS : List Nat) (sep : Option Nat) (b : List Nat) : Bool :=
  match sep with
  | Option.some c => (c :: etagS).isSuffixOf b
  | Option.none => etagS.isSuffixOf b

/-- Suffix rewriter as claim C4 states it: the condition is tested on the
basename (the path before the extension, when one exists); otherwise the
stale tail is stripped, the separator (when configured) and fingerprint
appended, and the extension re-appended. -/
def claimSuffixLoc (etagS : List Nat) (sep : Option Nat) (path : List Nat) :
    Option (List Nat) :=
  let ext := fileExt path
  let basename :=
    match ext with
    | Option.some e => path.take (path.length - e.length - 1)
    | Option.none => path
  if claimSuffixOk etagS sep basename then Option.none
  else
    some ((match sep with
      | Option.some c => stripSep basename c
      | Option.none => basename) ++ etagS ++
      (match ext with
       | Option.some e => [46] ++ e
       | Option.none => []))

/-- The no-rewrite condition as amended: additionally the byte string
must be strictly longer than the fingerprint when no separator is
configured. -/
def claimSuffixOkAmended (etagS : List Nat) (sep : Option Nat) (b : List Nat) : Bool :=
  match sep with
  | Option.some c => (c :: etagS).isSuffixOf b
  | Option.none => etagS.isSuffixOf b && decide (etagS.length < b.length)

/-- Suffix rewriter as amended: there is also no rewrite when the whole
path (extension included) ends with the separator-prefixed fingerprint —
the canonical form of an extensionless path — and the basename condition
requires the basename to be strictly longer than the fingerprint. -/
def claimSuffixLocAmended (etagS : List Nat) (sep : Option Nat) (path : List Nat) :
    Option (List Nat) :=
  if claimSuffixOkAmended etagS sep path then Option.none
  else
    match fileExt path with
    | Option.some e =>
      let basename := path.take (path.length - e.length - 1)
      if claimSuffixOkAmended etagS sep basename then Option.none
      else
        some ((match sep with
          | Option.some c => stripSep basename c
          | Option.none => basename) ++ etagS ++ [46] ++ e)
    | Option.none =>
      some ((match sep with
        | Option.some c => stripSep path c
        | Option.none => path) ++ etagS)

/-- Unquoting as claim C6 states it: strip the surrounding quotes only
when both the leading and the trailing quote are present and the length
exceeds 2. -/
def claimEtagStr (e : List Nat) : List Nat :=
  if [34].isPrefixOf e && [34].isSuffixOf e && decide (2 < e.length) then
    (e.drop 1).dropLast
  else e

/-- The const specializations as amended: strip bytes `1..len-1` whenever
the etag is nonempty and starts with a quote, regardless of the trailing
byte, panicking on a one-byte etag. -/
def claimConstEtagStrAmended (e : List Nat) : Option (List Nat) :=
  if e.isEmpty || !([34].isPrefixOf e) then some e
  else if 2 ≤ e.length then some ((e.drop 1).take (e.length - 2))
  else Option.none

/-! ## Theorems -/

/-! ### Supporting lemmas for the header and negotiator claims -/

theorem ccImmutable_ne_ccMustRevalidate : ccImmutable ≠ ccMustRevalidate := by decide

theorem isPrefixOf34 (e : List Nat) : [34].isPrefixOf e = (e.head? == some 34) := by
  cases e with
  | nil => rfl
  | cons b rest =>
    simp [List.isPrefixOf, Nat.beq_eq, eq_comm]

theorem isSuffixOf34 (e : List Nat) : [34].isSuffixOf e = (e.getLast? == some 34) := by
  rw [List.isSuffixOf, show ([34] : List Nat).reverse = [34] from rfl, isPrefixOf34,
    List.head?_reverse]

/-- C2: the assembled response headers always include `Content-Type` (the
file's mime) and `ETag` (the full quoted fingerprint); `Cache-Control` is
`public, max-age=31536000, immutable` exactly when the cache-busting mode
is not `None`, and `public, max-age=0, must-revalidate` exactly when the
mode is `None`. -/
theorem c2_response_headers (f : HttpFileModel) :
    (HeaderName.contentType, f.contentType) ∈ responseHeaders f [] ∧
    (HeaderName.etagHeader, f.etag) ∈ responseHeaders f [] ∧
    ((HeaderName.cacheControl, ccImmutable) ∈ responseHeaders f [] ↔
      f.cacheBusting ≠ CacheBusting.none) ∧
    ((HeaderName.cacheControl, ccMustRevalidate) ∈ responseHeaders f [] ↔
      f.cacheBusting = CacheBusting.none) := by
  have hne := ccImmutable_ne_ccMustRevalidate
  unfold responseHeaders
  by_cases h : f.cacheBusting = CacheBusting.none
  · simp [h, hne, Ne.symm hne]
  · simp [h, hne, Ne.symm hne]

/-- C10: a file whose mode is the trait default `CacheBusting::None`
(such as a plain `ConstHttpFile`, which does not override
`cache_busting`) is never answered with a 307; the only possible statuses
are 405, 204, 304 and 200. -/
theorem c10_no_redirect_without_busting (mime dataBytes etagV : List Nat) (req : RequestModel) :
    (constHttpFile mime dataBytes etagV).cacheBusting = CacheBusting.none ∧
    (respond (constHttpFile mime dataBytes etagV) req).status ≠ 307 ∧
    ((respond (constHttpFile mime dataBytes etagV) req).status = 405 ∨
      (respond (constHttpFile mime dataBytes etagV) req).status = 204 ∨
      (respond (constHttpFile mime dataBytes etagV) req).status = 304 ∨
      (respond (constHttpFile mime dataBytes etagV) req).status = 200) := by
  have hstat : (respond (constHttpFile mime dataBytes etagV) req).status = 405 ∨
      (respond (constHttpFile mime dataBytes etagV) req).status = 204 ∨
      (respond (constHttpFile mime dataBytes etagV) req).status = 304 ∨
      (respond (constHttpFile mime dataBytes etagV) req).status = 200 := by
    unfold respond respondGuard cachebustCheck constHttpFile
    by_cases h1 : req.method ≠ Method.HEAD ∧ req.method ≠ Method.OPTIONS ∧ req.method ≠ Method.GET
    · rw [if_pos h1]
      left; rfl
    · rw [if_neg h1]
      by_cases h2 : req.method = Method.OPTIONS
      · simp [h2]
      · by_cases h3 : inmMatches req.ifNoneMatch etagV = true
        · simp [h2, h3]
        · by_cases h4 : req.method = Method.HEAD
          · simp [h2, h3, h4]
          · simp [h2, h3, h4]
  refine ⟨rfl, ?_, hstat⟩
  rcases hstat with h | h | h | h <;> rw [h] <;> decide

/-- C1: for a request whose URI passes the cache-busting check, the
negotiator maps it to exactly one outcome (it is a function): a method
outside GET/HEAD/OPTIONS gets 405 with `Allow` and an empty body; OPTIONS
gets 204 with the assembled headers, `Allow`, and an empty body; a GET or
HEAD whose `If-None-Match` (split on `,`, tokens trimmed) contains `*` or
the full quoted etag gets 304 with an empty body and the assembled
headers; otherwise HEAD gets 200 with headers and an empty body and GET
gets 200 with headers and the full content body. -/
theorem c1_negotiator (f : HttpFileModel) (req : RequestModel)
    (hcb : cachebustCheck f req = Option.none) :
    ((req.method ≠ Method.GET ∧ req.method ≠ Method.HEAD ∧ req.method ≠ Method.OPTIONS) →
      respond f req = ⟨405, [(HeaderName.allow, allowValue)], []⟩) ∧
    (req.method = Method.OPTIONS →
      respond f req = ⟨204, responseHeaders f [] ++ [(HeaderName.allow, allowValue)], []⟩) ∧
    ((req.method = Method.GET ∨ req.method = Method.HEAD) →
      inmMatches req.ifNoneMatch f.etag = true →
      respond f req = ⟨304, responseHeaders f [], []⟩) ∧
    (req.method = Method.HEAD → inmMatches req.ifNoneMatch f.etag = false →
      respond f req = ⟨200, responseHeaders f [], []⟩) ∧
    (req.method = Method.GET → inmMatches req.ifNoneMatch f.etag = false →
      respond f req = ⟨200, responseHeaders f [], f.fileData⟩) := by
  unfold respond respondGuard
  rw [hcb]
  refine ⟨?_, ?_, ?_, ?_, ?_⟩
  · rintro ⟨h1, h2, h3⟩
    rw [if_pos ⟨h2, h3, h1⟩]
  · intro h
    rw [if_neg (by simp [h])]
    simp [h]
  · rintro (h | h) hm
    · rw [if_neg (by simp [h])]
      simp [h, hm]
    · rw [if_neg (by simp [h])]
      simp [h, hm]
  · intro h hm
    rw [if_neg (by simp [h])]
    simp [h, hm]
  · intro h hm
    rw [if_neg (by simp [h])]
    simp [h, hm]

theorem c1_negotiator_witness :
    cachebustCheck ⟨[116], [104, 105], [34, 101, 34], CacheBusting.none⟩
        ⟨Method.GET, [47], Option.none, Option.none⟩ = Option.none ∧
    respond ⟨[116], [104, 105], [34, 101, 34], CacheBusting.none⟩
        ⟨Method.GET, [47], Option.none, Option.none⟩ =
      ⟨200, responseHeaders ⟨[116], [104, 105], [34, 101, 34], CacheBusting.none⟩ [],
        [104, 105]⟩ :=
  ⟨rfl, (c1_negotiator ⟨[116], [104, 105], [34, 101, 34], CacheBusting.none⟩
    ⟨Method.GET, [47], Option.none, Option.none⟩ rfl).2.2.2.2 rfl rfl⟩

/-! ### Fingerprint structure (C5) -/

theorem b64char_in_alphabet : ∀ i, i < 64 → isB64urlChar (b64char i) = true := by decide

theorem mod256_lt (x : Nat) : x % 256 < 256 := Nat.mod_lt _ (by norm_num)

/-- C6 (counterexample): on the stored etag `"a` (a leading quote, no
trailing quote, length 2) the trait `etag_str` returns it unchanged, but
the const specialization `const_etag_str` strips it to the empty string —
the claim that every implementation strips only when both quotes are
present and the length exceeds 2 is false. -/
theorem c6_counterexample :
    etagStr [34, 97] = [34, 97] ∧
    constEtagStr [34, 97] = some [] ∧
    some ([] : List Nat) ≠ some ([34, 97] : List Nat) := by decide

/-- C6 (amended): the trait `etag_str` strips the quotes exactly when both
are present and the length exceeds 2; the const specializations
`const_etag_str` instead strip bytes `1..len-1` whenever the etag is
nonempty and starts with a quote — regardless of the trailing byte —
panicking on a one-byte etag; the two agree on properly quoted etags and
on etags not starting with a quote. -/
theorem c6_amended_etag_str (e : List Nat) :
    etagStr e = claimEtagStr e ∧ constEtagStr e = claimConstEtagStrAmended e := by
  constructor
  · have hcond : (decide (2 < e.length) && (e.head? == some 34) && (e.getLast? == some 34))
        = ([34].isPrefixOf e && [34].isSuffixOf e && decide (2 < e.length)) := by
      rw [isPrefixOf34, isSuffixOf34]
      cases decide (2 < e.length) <;> cases e.head? == some 34 <;>
        cases e.getLast? == some 34 <;> rfl
    unfold etagStr claimEtagStr
    rw [hcond]
  · unfold constEtagStr claimConstEtagStrAmended
    rw [isPrefixOf34]

theorem c7_scan_aux : ∀ fuel j, j ≤ 5 →
    scanBefore (ascii "<?xml") (ascii "<html") 0 fuel j = none := by
  intro fuel
  induction fuel with
  | zero => intro j _; rfl
  | succ fuel ih =>
    intro j hj
    interval_cases j
    · rw [show scanBefore (ascii "<?xml") (ascii "<html") 0 (fuel + 1) 0
          = scanBefore (ascii "<?xml") (ascii "<html") 0 fuel 1 from rfl]
      exact ih 1 (by omega)
    · rw [show scanBefore (ascii "<?xml") (ascii "<html") 0 (fuel + 1) 1
          = scanBefore (ascii "<?xml") (ascii "<html") 0 fuel 2 from rfl]
      exact ih 2 (by omega)
    · rw [show scanBefore (ascii "<?xml") (ascii "<html") 0 (fuel + 1) 2
          = scanBefore (ascii "<?xml") (ascii "<html") 0 fuel 3 from rfl]
      exact ih 3 (by omega)
    · rw [show scanBefore (ascii "<?xml") (ascii "<html") 0 (fuel + 1) 3
          = scanBefore (ascii "<?xml") (ascii "<html") 0 fuel 4 from rfl]
      exact ih 4 (by omega)
    · rw [show scanBefore (ascii "<?xml") (ascii "<html") 0 (fuel + 1) 4
          = scanBefore (ascii "<?xml") (ascii "<html") 0 fuel 5 from rfl]
      exact ih 5 (by omega)
    · rfl

/-- C7: magic-byte matching is not in-bounds and total on every input.
On the five-byte input `<?xml` the nested XML table's `<html` entry (a
scan entry whose pattern length equals the input length) drives the scan
loop to read past the end of the input and never break: the model of
`lookup_magic` reaches the undefined-behaviour marker, for any amount of
fuel given to the scan.  The spec requires such inputs to be treated as a
safe non-match (the outer `<?xml` match would then fall back to
`text/xml`). -/
theorem c7_magic_out_of_bounds :
    detectMimeTypeMagicO (ascii "<?xml") = none ∧
    (∀ fuel, scanBefore (ascii "<?xml") (ascii "<html") 0 fuel 0 = none) :=
  ⟨by decide, fun fuel => c7_scan_aux fuel 0 (by omega)⟩

/-- C5: for every byte span (and every 64-bit hash function standing for
the out-of-scope `xxh3_64`), the computed fingerprint is 12 bytes, its
first and last byte are the quote character, the 10 bytes between them
are base64url characters, and the const implementation `compute_etag` and
the runtime implementation `compute_etag_nonconst` produce identical
output (both being deterministic functions of the input). -/
theorem c5_fingerprint (xxh : List Nat → Nat) (data : List Nat) :
    ∃ e, compute_etag xxh data = some e ∧ compute_etag_nonconst xxh data = some e ∧
      e.length = 12 ∧ e.head? = some 34 ∧ e.getLast? = some 34 ∧
      ((e.drop 1).take 10).all isB64urlChar = true := by
  obtain ⟨x0, x1, x2, x3, x4, x5, x6, x7, hbytes, hb0, hb1, hb2, hb3, hb4, hb5, hb6, hb7⟩ :
      ∃ x0 x1 x2 x3 x4 x5 x6 x7,
        toBeBytes64 (xxh data) = [x0, x1, x2, x3, x4, x5, x6, x7] ∧
        x0 < 256 ∧ x1 < 256 ∧ x2 < 256 ∧ x3 < 256 ∧
        x4 < 256 ∧ x5 < 256 ∧ x6 < 256 ∧ x7 < 256 :=
    ⟨_, _, _, _, _, _, _, _, rfl, mod256_lt _, mod256_lt _, mod256_lt _, mod256_lt _,
      mod256_lt _, mod256_lt _, mod256_lt _, mod256_lt _⟩
  have hb64 : b64urlConst [x0, x1, x2, x3, x4, x5, x6, x7] (List.replicate 12 0) 1 =
      some (0 :: b64chunks [x0, x1, x2, x3, x4, x5, x6, x7], 12) := by
    norm_num [b64urlConst, spliceAt, b64chunks]
  have hkey : compute_etag xxh data = some
      (34 :: b64char (x0 / 4) :: b64char (x0 % 4 * 16 + x1 / 16) ::
        b64char (x1 % 16 * 4 + x2 / 64) :: b64char (x2 % 64) ::
        b64char (x3 / 4) :: b64char (x3 % 4 * 16 + x4 / 16) ::
        b64char (x4 % 16 * 4 + x5 / 64) :: b64char (x5 % 64) ::
        b64char (x6 / 4) :: b64char (x6 % 4 * 16 + x7 / 16) :: [34]) := by
    rw [compute_etag, hbytes, hb64]
    rfl
  have hkey2 : compute_etag_nonconst xxh data = some
      (34 :: b64char (x0 / 4) :: b64char (x0 % 4 * 16 + x1 / 16) ::
        b64char (x1 % 16 * 4 + x2 / 64) :: b64char (x2 % 64) ::
        b64char (x3 / 4) :: b64char (x3 % 4 * 16 + x4 / 16) ::
        b64char (x4 % 16 * 4 + x5 / 64) :: b64char (x5 % 64) ::
        b64char (x6 / 4) :: b64char (x6 % 4 * 16 + x7 / 16) :: [34]) := by
    rw [compute_etag_nonconst, hbytes, hb64]
    rfl
  refine ⟨_, hkey, hkey2, by simp, rfl, by rfl, ?_⟩
  simp only [List.drop_succ_cons, List.drop_zero, List.take_succ_cons, List.take_zero,
    List.all_cons, List.all_nil, Bool.and_eq_true, and_true]
  refine ⟨?_, ?_, ?_, ?_, ?_, ?_, ?_, ?_, ?_, ?_⟩ <;> exact b64char_in_alphabet _ (by omega)

/-! ### Query cache-busting (C3) -/

theorem emitPair_eq (key x : List Nat) :
    emitPair key x = !(x == key || (key ++ [61]).isPrefixOf x) := by
  unfold emitPair
  by_cases hpre : key <+: x
  · obtain ⟨r, hr⟩ := hpre
    subst hr
    cases r with
    | nil =>
      have h1 : key.isPrefixOf (key ++ []) = true := by
        rw [List.isPrefixOf_iff_prefix]
        exact ⟨[], rfl⟩
      have h2 : ((key ++ []) == key) = true := by
        simp
      have h3 : ¬ key.length < (key ++ []).length := by simp
      simp [h1, h2, h3]
    | cons r0 rt =>
      have h1 : key.isPrefixOf (key ++ r0 :: rt) = true := by
        rw [List.isPrefixOf_iff_prefix]
        exact ⟨r0 :: rt, rfl⟩
      have h2 : ((key ++ r0 :: rt) == key) = false := by
        rw [beq_eq_false_iff_ne]
        intro hcontra
        have := congrArg List.length hcontra
        simp at this
      have h3 : key.length < (key ++ r0 :: rt).length := by simp
      have h4 : (key ++ r0 :: rt).drop key.length = r0 :: rt := List.drop_left key (r0 :: rt)
      by_cases h61 : r0 = 61
      · subst h61
        have h5 : (key ++ [61]).isPrefixOf (key ++ 61 :: rt) = true := by
          rw [List.isPrefixOf_iff_prefix]
          exact ⟨rt, by simp⟩
        simp [h1, h2, h3, h4, h5]
      · have h5 : (key ++ [61]).isPrefixOf (key ++ 61 :: rt) = false ∨ True := Or.inr trivial
        have h6 : (key ++ [61]).isPrefixOf (key ++ r0 :: rt) = false := by
          rw [Bool.eq_false_iff]
          intro hcontra
          rw [List.isPrefixOf_iff_prefix] at hcontra
          obtain ⟨t, ht⟩ := hcontra
          rw [List.append_assoc] at ht
          have := List.append_cancel_left ht
          simp at this
          exact h61 this.1.symm
        simp [h1, h2, h3, h4, h6, h61]
  · have h1 : key.isPrefixOf x = false := by
      rw [Bool.eq_false_iff]
      intro hcontra
      exact hpre (List.isPrefixOf_iff_prefix.mp hcontra)
    have h2 : (x == key) = false := by
      rw [beq_eq_false_iff_ne]
      intro hcontra
      exact hpre (hcontra ▸ List.prefix_refl x)
    have h3 : (key ++ [61]).isPrefixOf x = false := by
      rw [Bool.eq_false_iff]
      intro hcontra
      rw [List.isPrefixOf_iff_prefix] at hcontra
      obtain ⟨t, ht⟩ := hcontra
      exact hpre ⟨61 :: t, by rw [← ht]; simp⟩
    simp [h1, h2, h3]

theorem foldl_if_filter (p : List Nat → Bool) (l : List (List Nat)) (acc : List Nat) :
    l.foldl (fun acc x => if p x then acc ++ [38] ++ x else acc) acc
      = (l.filter p).foldl (fun acc x => acc ++ [38] ++ x) acc := by
  induction l generalizing acc with
  | nil => rfl
  | cons x xs ih =>
    by_cases hp : p x = true
    · simp only [List.foldl_cons, List.filter_cons, hp, if_true]
      exact ih _
    · simp only [List.foldl_cons, List.filter_cons, hp, if_false]
      exact ih _

/-- C3 (counterexample): with fingerprint `abc` and mode `Query("v")`, the
request URI `/f.js?v` (a valueless occurrence of the key) is rewritten by
the code to `/f.js?v=abc&v` — the valueless occurrence of the key is
re-emitted, not removed as the claim requires. -/
theorem c3_counterexample :
    cachebustUriLoc (ascii "abc") (ascii "v") (ascii "/f.js") (some (ascii "v"))
      = some (ascii "/f.js?v=abc&v") ∧
    claimQueryLoc (ascii "abc") (ascii "v") (ascii "/f.js") (some (ascii "v"))
      = some (ascii "/f.js?v=abc") ∧
    some (ascii "/f.js?v=abc&v") ≠ some (ascii "/f.js?v=abc") := by decide

/-- C3 (amended): in `Query(key)` mode, the value of the first
`=`-carrying occurrence of the key decides the rewrite: if it equals the
unquoted fingerprint there is no redirect; with no query string the
Location is `path?key=etag`; when some occurrence of the key carries a
value, the Location re-emits all original parameters verbatim after
`key=etag` except occurrences of the key (exact or with `=`), which are
removed; when the query is nonempty but no occurrence of the key carries
a value, the whole original query is appended verbatim (valueless
occurrences of the key included). -/
theorem c3_amended_query_rewriter (etagS key path : List Nat) (query : Option (List Nat)) :
    cachebustUriLoc etagS key path query = claimQueryLocAmended etagS key path query := by
  cases query with
  | none => rfl
  | some q =>
    unfold cachebustUriLoc claimQueryLocAmended queryFindVal
    simp only
    by_cases hqv : (((splitOnB 38 q).findSome? fun p =>
        if (splitFirst 61 p).1 = key then (splitFirst 61 p).2 else Option.none)
          == some etagS) = true
    · simp only [hqv, if_true]
    · simp only [hqv, if_false]
      cases hv : (splitOnB 38 q).findSome? fun p =>
          if (splitFirst 61 p).1 = key then (splitFirst 61 p).2 else Option.none with
      | none =>
        simp only [Option.isSome_none, Bool.false_eq_true, if_false]
        cases hq : q.isEmpty <;> simp [hq]
      | some v =>
        simp only [Option.isSome_some, if_true]
        rw [foldl_if_filter]
        rw [List.filter_congr fun x _ => emitPair_eq key x]

/-! ### Suffix cache-busting (C4) -/

theorem getD_append_cons (t x : List Nat) (c : Nat) : (t ++ c :: x).getD t.length 0 = c := by
  rw [List.getD_eq_getElem?_getD, List.getElem?_append_right (le_refl t.length)]
  simp

theorem cons_isSuffixOf_eq (c : Nat) (e s : List Nat) :
    (c :: e).isSuffixOf s =
      (e.isSuffixOf s && decide (e.length < s.length) &&
        (s.getD (s.length - e.length - 1) 0 == c)) := by
  rw [Bool.eq_iff_iff]
  simp only [Bool.and_eq_true, beq_iff_eq, decide_eq_true_eq, List.isSuffixOf_iff_suffix]
  constructor
  · rintro ⟨t, rfl⟩
    refine ⟨⟨⟨t ++ [c], by simp⟩, by simp only [List.length_append, List.length_cons]; omega⟩, ?_⟩
    have hl : (t ++ c :: e).length - e.length - 1 = t.length := by
      simp only [List.length_append, List.length_cons]
      omega
    rw [hl]
    exact getD_append_cons t e c
  · rintro ⟨⟨⟨t, rfl⟩, hlen⟩, hgd⟩
    rcases List.eq_nil_or_concat t with rfl | ⟨t2, a, rfl⟩
    · simp at hlen
    · refine ⟨t2, ?_⟩
      have hl : (t2.concat a ++ e).length - e.length - 1 = t2.length := by
        simp only [List.length_append, List.concat_eq_append, List.length_cons,
          List.length_nil]
        omega
      rw [hl] at hgd
      have hg2 : (t2.concat a ++ e).getD t2.length 0 = a := by
        rw [List.concat_eq_append, List.append_assoc]
        exact getD_append_cons t2 e a
      rw [hg2] at hgd
      subst hgd
      simp [List.concat_eq_append]

theorem suffixNoRewrite_eq_claim (etagS : List Nat) (sep : Option Nat) (s : List Nat) :
    suffixNoRewrite etagS sep s = claimSuffixOkAmended etagS sep s := by
  unfold suffixNoRewrite claimSuffixOkAmended
  cases sep with
  | none =>
    dsimp only
    by_cases hc : (etagS.isSuffixOf s && decide (etagS.length < s.length)) = true
    · simp [hc]
    · simp [hc]
  | some c =>
    dsimp only
    rw [cons_isSuffixOf_eq]
    by_cases hc : (etagS.isSuffixOf s && decide (etagS.length < s.length)) = true
    · simp only [hc, if_true]
      rw [Bool.true_and]
    · simp only [hc, if_false]
      simp [eq_false_of_ne_true hc]

/-- C4 (counterexample): with fingerprint `abc` and separator `.`, the
path `/f.abc` — whose basename `/f` does not end with `.abc`, the claim's
no-rewrite condition — is nevertheless not rewritten by the code, because
the whole path ends with `.abc` (the canonical form of an extensionless
path); the claim's algorithm would redirect it to `/f.abc.abc`. -/
theorem c4_counterexample :
    cachebustSuffixLoc (ascii "abc") (some 46) (ascii "/f.abc") = Option.none ∧
    claimSuffixLoc (ascii "abc") (some 46) (ascii "/f.abc") = some (ascii "/f.abc.abc") ∧
    (Option.none : Option (List Nat)) ≠ some (ascii "/f.abc.abc") := by decide

/-- C4 (amended): in `Suffix(separator)` mode there is no rewrite exactly
when the basename (before the extension, if any) or the whole path ends
with the fingerprint preceded by the configured separator byte (or, with
no separator configured, ends with the fingerprint and is strictly longer
than it); otherwise the rewriter strips any trailing separator-delimited
tail found via a right-most search for the separator strictly after the
last path separator, appends the separator (if configured) and the
fingerprint, and re-appends the original extension; rewrites are 307
redirects to this path. -/
theorem c4_amended_suffix_rewriter (etagS : List Nat) (sep : Option Nat) (path : List Nat) :
    cachebustSuffixLoc etagS sep path = claimSuffixLocAmended etagS sep path := by
  unfold cachebustSuffixLoc claimSuffixLocAmended
  simp only [suffixNoRewrite_eq_claim]

/-! ### Percent-codec lemmas (C8, C9) -/

theorem isSafeByte_ne37 (b : Nat) (h : isSafeByte b = true) : b ≠ 37 := by
  unfold isSafeByte at h
  simp only [Bool.or_eq_true, Bool.and_eq_true, decide_eq_true_eq, beq_iff_eq] at h
  omega

theorem isSafeByte_lt256 (b : Nat) (h : isSafeByte b = true) : b < 256 := by
  unfold isSafeByte at h
  simp only [Bool.or_eq_true, Bool.and_eq_true, decide_eq_true_eq, beq_iff_eq] at h
  omega

theorem safeSplit_append (s : List Nat) : (safeSplit s).1 ++ (safeSplit s).2 = s := by
  induction s with
  | nil => rfl
  | cons b rest ih =>
    unfold safeSplit
    by_cases hb : isSafeByte b
    · simp only [hb, if_true]
      simpa using ih
    · simp [hb]

theorem safeSplit_run_safe (s : List Nat) : ∀ b ∈ (safeSplit s).1, isSafeByte b = true := by
  induction s with
  | nil => intro b hb; simp [safeSplit] at hb
  | cons x rest ih =>
    intro b hb
    unfold safeSplit at hb
    by_cases hx : isSafeByte x
    · simp only [hx, if_true] at hb
      rcases List.mem_cons.mp (by simpa using hb) with rfl | hb2
      · exact hx
      · exact ih b hb2
    · simp [hx] at hb

theorem scanToPercent_append (s : List Nat) : (scanToPercent s).1 ++ (scanToPercent s).2 = s := by
  induction s with
  | nil => rfl
  | cons b rest ih =>
    unfold scanToPercent
    by_cases hb : b == 37
    · simp [hb]
    · simp only [hb, if_false]
      simpa using ih

theorem scanToPercent_run_no37 (s : List Nat) : ∀ b ∈ (scanToPercent s).1, b ≠ 37 := by
  induction s with
  | nil => intro b hb; simp [scanToPercent] at hb
  | cons x rest ih =>
    intro b hb
    unfold scanToPercent at hb
    by_cases hx : (x == 37) = true
    · simp [hx] at hb
    · simp only [hx, if_false] at hb
      rcases List.mem_cons.mp (by simpa using hb) with rfl | hb2
      · exact fun hc => hx (by rw [hc]; rfl)
      · exact ih b hb2

theorem scanToPercent_rest_head (s : List Nat) :
    (scanToPercent s).2 = [] ∨ ∃ t, (scanToPercent s).2 = 37 :: t := by
  induction s with
  | nil => left; rfl
  | cons b rest ih =>
    unfold scanToPercent
    by_cases hb : (b == 37) = true
    · right
      refine ⟨rest, ?_⟩
      have : b = 37 := by simpa using hb
      simp [hb, this]
    · simp only [hb, if_false]
      simpa using ih

theorem hexVal_hexHi (b : Nat) : hexVal (hexHi b) = some (b / 16 % 16) := by
  unfold hexHi hexVal
  have hv : b / 16 % 16 < 16 := Nat.mod_lt _ (by norm_num)
  by_cases h : b / 16 % 16 ≤ 9
  · rw [if_pos h]
    have hc : (48 ≤ 48 + b / 16 % 16 && 48 + b / 16 % 16 ≤ 57) = true := by
      simp only [Bool.and_eq_true, decide_eq_true_eq]
      omega
    rw [if_pos hc]
    congr 1
    omega
  · rw [if_neg h]
    have hc1 : (48 ≤ 65 + (b / 16 % 16 - 10) && 65 + (b / 16 % 16 - 10) ≤ 57) = false := by
      simp only [Bool.and_eq_false_iff]
      right
      simp only [decide_eq_false_iff_not]
      omega
    have hc2 : (65 ≤ 65 + (b / 16 % 16 - 10) && 65 + (b / 16 % 16 - 10) ≤ 70) = true := by
      simp only [Bool.and_eq_true, decide_eq_true_eq]
      omega
    rw [if_neg (by rw [hc1]; exact Bool.false_ne_true), if_pos hc2]
    congr 1
    omega

theorem hexVal_hexLo (b : Nat) : hexVal (hexLo b) = some (b % 16) := by
  unfold hexLo hexVal
  have hv : b % 16 < 16 := Nat.mod_lt _ (by norm_num)
  by_cases h : b % 16 ≤ 9
  · rw [if_pos h]
    have hc : (48 ≤ 48 + b % 16 && 48 + b % 16 ≤ 57) = true := by
      simp only [Bool.and_eq_true, decide_eq_true_eq]
      omega
    rw [if_pos hc]
    congr 1
    omega
  · rw [if_neg h]
    have hc1 : (48 ≤ 65 + (b % 16 - 10) && 65 + (b % 16 - 10) ≤ 57) = false := by
      simp only [Bool.and_eq_false_iff]
      right
      simp only [decide_eq_false_iff_not]
      omega
    have hc2 : (65 ≤ 65 + (b % 16 - 10) && 65 + (b % 16 - 10) ≤ 70) = true := by
      simp only [Bool.and_eq_true, decide_eq_true_eq]
      omega
    rw [if_neg (by rw [hc1]; exact Bool.false_ne_true), if_pos hc2]
    congr 1
    omega

theorem hexVal_ne37 (b v : Nat) (h : hexVal b = some v) : b ≠ 37 := by
  intro hb
  subst hb
  rw [show hexVal 37 = none from rfl] at h
  exact Option.noConfusion h

theorem specUrldecode_cons_safe (b : Nat) (t : List Nat) (h : b ≠ 37) :
    specUrldecode (b :: t) = (specUrldecode t).map (fun u => b :: u) := by
  rw [specUrldecode.eq_def]
  dsimp only
  rw [if_neg (by simpa using h)]

theorem specUrldecode_append_no37 (xs t : List Nat) (h : ∀ b ∈ xs, b ≠ 37) :
    specUrldecode (xs ++ t) = (specUrldecode t).map (fun u => xs ++ u) := by
  induction xs with
  | nil => simp
  | cons b rest ih =>
    rw [List.cons_append, specUrldecode_cons_safe b (rest ++ t) (h b (by simp)),
      ih (fun x hx => h x (by simp [hx]))]
    rw [Option.map_map]
    rfl

theorem specUrldecode_triplet (h l hv lv : Nat) (t : List Nat)
    (hh : hexVal h = some hv) (hl : hexVal l = some lv) :
    specUrldecode (37 :: h :: l :: t) = (specUrldecode t).map (fun u => (hv * 16 + lv) :: u) := by
  rw [specUrldecode.eq_def]
  dsimp only
  rw [hh, hl]
  rfl

theorem vt_spec_append (pre vals t : List Nat) (hvt : ValidTriplets pre vals) :
    specUrldecode (pre ++ t) = (specUrldecode t).map (fun u => vals ++ u) := by
  induction hvt with
  | nil => simp
  | cons hh hl _ ih =>
    rw [List.cons_append, List.cons_append, List.cons_append,
      specUrldecode_triplet _ _ _ _ _ hh hl, ih, Option.map_map]
    rfl

theorem specUrldecode_self_no37 (s : List Nat) (h : ∀ b ∈ s, b ≠ 37) :
    specUrldecode s = some s := by
  have h2 := specUrldecode_append_no37 s [] h
  rw [List.append_nil] at h2
  rw [h2, show specUrldecode [] = some [] from rfl, Option.map_some', List.append_nil]

theorem vt_nil_iff (pre vals : List Nat) (hvt : ValidTriplets pre vals) :
    pre = [] ↔ vals = [] := by
  cases hvt with
  | nil => simp
  | cons hh hl hvt2 => simp

theorem vt_length (pre vals : List Nat) (hvt : ValidTriplets pre vals) :
    pre.length = 3 * vals.length := by
  induction hvt with
  | nil => rfl
  | cons hh hl _ ih => simp [ih]; ring

theorem malformedAt_nil (p : Nat) : malformedAt [] p = false := by
  unfold malformedAt
  simp

theorem malformedAt_cons (b : Nat) (u : List Nat) (q : Nat) :
    malformedAt (b :: u) (q + 1) = malformedAt u q := by
  unfold malformedAt
  rfl

theorem malformedAt_zero_safe (b : Nat) (u : List Nat) (h : b ≠ 37) :
    malformedAt (b :: u) 0 = false := by
  unfold malformedAt
  simp [h]

theorem malformedAt_zero_triplet (h l hv lv : Nat) (t : List Nat)
    (hh : hexVal h = some hv) (hl : hexVal l = some lv) :
    malformedAt (37 :: h :: l :: t) 0 = false := by
  unfold malformedAt
  simp [hh, hl]

theorem malformedAt_append_no37 (xs t : List Nat) (h : ∀ b ∈ xs, b ≠ 37) :
    (∀ q, q < xs.length → malformedAt (xs ++ t) q = false) ∧
    (∀ p, malformedAt (xs ++ t) (xs.length + p) = malformedAt t p) := by
  induction xs with
  | nil => exact ⟨fun q hq => absurd hq (by simp), fun p => by simp⟩
  | cons b rest ih =>
    obtain ⟨ih1, ih2⟩ := ih (fun x hx => h x (by simp [hx]))
    constructor
    · intro q hq
      cases q with
      | zero => exact malformedAt_zero_safe b (rest ++ t) (h b (by simp))
      | succ q2 =>
        rw [List.cons_append, malformedAt_cons]
        exact ih1 q2 (by simpa using hq)
    · intro p
      rw [List.cons_append, List.length_cons,
        show rest.length + 1 + p = (rest.length + p) + 1 from by omega, malformedAt_cons]
      exact ih2 p

theorem vt_malformed (pre vals t : List Nat) (hvt : ValidTriplets pre vals) :
    (∀ q, q < pre.length → malformedAt (pre ++ t) q = false) ∧
    (∀ p, malformedAt (pre ++ t) (pre.length + p) = malformedAt t p) := by
  induction hvt with
  | nil => exact ⟨fun q hq => absurd hq (by simp), fun p => by simp⟩
  | @cons h l p2 v2 hv lv hh hl hvt2 ih =>
    obtain ⟨ih1, ih2⟩ := ih
    constructor
    · intro q hq
      match q with
      | 0 =>
        rw [List.cons_append, List.cons_append, List.cons_append]
        exact malformedAt_zero_triplet h l hv lv (p2 ++ t) hh hl
      | 1 =>
        rw [List.cons_append, List.cons_append, List.cons_append, malformedAt_cons]
        exact malformedAt_zero_safe h (l :: (p2 ++ t)) (hexVal_ne37 h hv hh)
      | 2 =>
        rw [List.cons_append, List.cons_append, List.cons_append, malformedAt_cons,
          malformedAt_cons]
        exact malformedAt_zero_safe l (p2 ++ t) (hexVal_ne37 l lv hl)
      | q2 + 3 =>
        rw [List.cons_append, List.cons_append, List.cons_append, malformedAt_cons,
          malformedAt_cons, malformedAt_cons]
        exact ih1 q2 (by simp at hq ⊢; omega)
    · intro p
      rw [List.cons_append, List.cons_append, List.cons_append, List.length_cons,
        List.length_cons, List.length_cons,
        show p2.length + 1 + 1 + 1 + p = ((p2.length + p) + 1 + 1) + 1 from by omega,
        malformedAt_cons, malformedAt_cons, malformedAt_cons]
      exact ih2 p

theorem headInvalid_malformed (t : List Nat) (hinv : headInvalid (37 :: t) = true) :
    malformedAt (37 :: t) 0 = true := by
  unfold malformedAt
  cases t with
  | nil => rfl
  | cons h rest =>
    cases rest with
    | nil => rfl
    | cons l rest2 =>
      unfold headInvalid at hinv
      simp only [List.get?] at *
      simp [hinv]

theorem decodeChunk_split_aux (n : Nat) : ∀ rem dec : List Nat, rem.length ≤ n →
    (rem ≠ [] → rem.head? = some 37) →
    ∃ pre vals, ValidTriplets pre vals ∧
      rem = pre ++ (decodeChunk rem dec).2 ∧
      (decodeChunk rem dec).1 = dec ++ vals ∧
      (vals = [] → decodeChunk rem dec = (dec, rem) ∧ headInvalid rem = true) := by
  induction n with
  | zero =>
    intro rem dec h _
    have : rem = [] := List.length_eq_zero.mp (Nat.le_zero.mp h)
    subst this
    exact ⟨[], [], ValidTriplets.nil, rfl, by simp [decodeChunk], fun _ => ⟨rfl, rfl⟩⟩
  | succ n ih =>
    intro rem dec h hhead
    cases rem with
    | nil => exact ⟨[], [], ValidTriplets.nil, rfl, by simp [decodeChunk], fun _ => ⟨rfl, rfl⟩⟩
    | cons p rem1 =>
      have hp : p = 37 := by
        have := hhead (by simp)
        simpa using this
      subst hp
      cases rem1 with
      | nil => exact ⟨[], [], ValidTriplets.nil, rfl, by simp [decodeChunk], fun _ => ⟨rfl, rfl⟩⟩
      | cons h1 rem2 =>
        cases rem2 with
        | nil => exact ⟨[], [], ValidTriplets.nil, rfl, by simp [decodeChunk], fun _ => ⟨rfl, rfl⟩⟩
        | cons l rest =>
          simp only [decodeChunk]
          cases hh : hexVal h1 with
          | none =>
            refine ⟨[], [], ValidTriplets.nil, rfl, by simp, fun _ => ⟨rfl, ?_⟩⟩
            simp [headInvalid, hh]
          | some hv =>
            cases hl : hexVal l with
            | none =>
              refine ⟨[], [], ValidTriplets.nil, rfl, by simp, fun _ => ⟨rfl, ?_⟩⟩
              simp [headInvalid, hh, hl]
            | some lv =>
              simp only
              cases rest with
              | nil =>
                exact ⟨[37, h1, l], [hv * 16 + lv],
                  ValidTriplets.cons hh hl ValidTriplets.nil, by simp, by simp,
                  fun hc => absurd hc (by simp)⟩
              | cons r0 rest1 =>
                cases rest1 with
                | nil =>
                  exact ⟨[37, h1, l], [hv * 16 + lv],
                    ValidTriplets.cons hh hl ValidTriplets.nil, by simp, by simp,
                    fun hc => absurd hc (by simp)⟩
                | cons r1 rest2 =>
                  by_cases hcond : (r0 == 37 && (dec ++ [hv * 16 + lv]).length != 14) = true
                  · simp only [hcond, if_true]
                    have hr0 : r0 = 37 := by
                      rw [Bool.and_eq_true] at hcond
                      simpa using hcond.1
                    obtain ⟨pre2, vals2, hvt2, heq2, hout2, hnil2⟩ :=
                      ih (r0 :: r1 :: rest2) (dec ++ [hv * 16 + lv])
                        (by simp at h ⊢; omega)
                        (fun _ => by rw [hr0]; rfl)
                    refine ⟨37 :: h1 :: l :: pre2, (hv * 16 + lv) :: vals2,
                      ValidTriplets.cons hh hl hvt2, ?_, ?_, fun hc => absurd hc (by simp)⟩
                    · rw [List.cons_append, List.cons_append, List.cons_append]
                      rw [← heq2]
                    · rw [hout2, List.append_assoc]
                      rfl
                  · simp only [hcond, if_false]
                    exact ⟨[37, h1, l], [hv * 16 + lv],
                      ValidTriplets.cons hh hl ValidTriplets.nil, by simp, by simp,
                      fun hc => absurd hc (by simp)⟩

theorem decodeChunk_split (rem dec : List Nat) (hhead : rem ≠ [] → rem.head? = some 37) :
    ∃ pre vals, ValidTriplets pre vals ∧
      rem = pre ++ (decodeChunk rem dec).2 ∧
      (decodeChunk rem dec).1 = dec ++ vals ∧
      (vals = [] → decodeChunk rem dec = (dec, rem) ∧ headInvalid rem = true) :=
  decodeChunk_split_aux rem.length rem dec le_rfl hhead

theorem urldecodeFull_nil : urldecodeFull [] = .ok [] := by
  rw [urldecodeFull]
  rfl

theorem urldecodeIter_cons (b : Nat) (rest : List Nat) :
    urldecodeIter (b :: rest) =
      if (scanToPercent (b :: rest)).2.isEmpty then (b :: rest, [])
      else if ¬(scanToPercent (b :: rest)).1.isEmpty then
        ((scanToPercent (b :: rest)).1, (scanToPercent (b :: rest)).2)
      else decodeChunk (b :: rest) [] := rfl

theorem urldecodeFull_step (s : List Nat) (hs : s ≠ []) :
    urldecodeFull s =
      if (urldecodeIter s).1 = [] then Except.error ([], (urldecodeIter s).2)
      else
        match urldecodeFull (urldecodeIter s).2 with
        | .ok out => .ok ((urldecodeIter s).1 ++ out)
        | .error (dd, rr) => .error ((urldecodeIter s).1 ++ dd, rr) := by
  rw [urldecodeFull, dif_neg hs]
  by_cases hd : (urldecodeIter s).1 = []
  · rw [dif_pos hd, if_pos hd]
  · rw [dif_neg hd, if_neg hd]

theorem urldecodeFull_spec_aux (n : Nat) : ∀ s : List Nat, s.length ≤ n →
    (∀ out, urldecodeFull s = .ok out → specUrldecode s = some out) ∧
    (∀ d r, urldecodeFull s = .error (d, r) →
      ∃ p, malformedAt s p = true ∧ (∀ q, q < p → malformedAt s q = false) ∧
        r = s.drop p ∧ specUrldecode (s.take p) = some d) := by
  induction n with
  | zero =>
    intro s h
    have hs : s = [] := List.length_eq_zero.mp (Nat.le_zero.mp h)
    subst hs
    constructor
    · intro out hout
      rw [urldecodeFull_nil] at hout
      cases hout
      rfl
    · intro d r herr
      rw [urldecodeFull_nil] at herr
      exact Except.noConfusion herr
  | succ n ih =>
    intro s h
    by_cases hs : s = []
    · subst hs
      constructor
      · intro out hout
        rw [urldecodeFull_nil] at hout
        cases hout
        rfl
      · intro d r herr
        rw [urldecodeFull_nil] at herr
        exact Except.noConfusion herr
    · obtain ⟨b, rest, rfl⟩ : ∃ b rest, s = b :: rest := by
        cases s with
        | nil => exact absurd rfl hs
        | cons b rest => exact ⟨b, rest, rfl⟩
      have hstep := urldecodeFull_step (b :: rest) hs
      obtain ⟨run, r2, hscan⟩ : ∃ run r2, scanToPercent (b :: rest) = (run, r2) :=
        ⟨_, _, rfl⟩
      have hs_eq : run ++ r2 = b :: rest := by
        have := scanToPercent_append (b :: rest)
        rw [hscan] at this
        exact this
      have hno37run : ∀ x ∈ run, x ≠ 37 := by
        intro x hx
        exact scanToPercent_run_no37 (b :: rest) x (by rw [hscan]; exact hx)
      by_cases hA : r2 = []
      · -- no percent sign in the input at all
        subst hA
        rw [List.append_nil] at hs_eq
        have hiter : urldecodeIter (b :: rest) = (b :: rest, []) := by
          rw [urldecodeIter_cons, hscan]
          simp
        rw [hiter] at hstep
        simp only at hstep
        rw [if_neg (by simp), urldecodeFull_nil] at hstep
        have hno37 : ∀ x ∈ b :: rest, x ≠ 37 := by
          rw [← hs_eq]
          exact hno37run
        constructor
        · intro out hout
          rw [hstep] at hout
          cases hout
          rw [List.append_nil]
          exact specUrldecode_self_no37 _ hno37
        · intro d r herr
          rw [hstep] at herr
          exact Except.noConfusion herr
      · by_cases hB : run = []
        · -- the input starts with a percent sign: the decode loop runs
          subst hB
          rw [List.nil_append] at hs_eq
          subst hs_eq
          have hb37 : b = 37 := by
            rcases scanToPercent_rest_head (b :: rest) with h0 | ⟨t, ht⟩
            · rw [hscan] at h0
              simp only at h0
              exact absurd h0 hs
            · rw [hscan] at ht
              simp only at ht
              injection ht with hb _
          have hiter : urldecodeIter (b :: rest) = decodeChunk (b :: rest) [] := by
            rw [urldecodeIter_cons, hscan]
            rw [if_neg (by simpa using hA), if_neg (by simp)]
          obtain ⟨pre, vals, hvt, hseq, hd1, hnil⟩ :=
            decodeChunk_split (b :: rest) [] (fun _ => by rw [hb37]; rfl)
          rw [List.nil_append] at hd1
          rw [hiter] at hstep
          by_cases hv0 : vals = []
          · obtain ⟨hchunk_eq, hinv⟩ := hnil hv0
            rw [hchunk_eq] at hstep
            simp only at hstep
            rw [if_pos trivial] at hstep
            constructor
            · intro out hout
              rw [hstep] at hout
              exact Except.noConfusion hout
            · intro d r herr
              rw [hstep] at herr
              injection herr with hpair
              injection hpair with h1 h2
              refine ⟨0, ?_, fun q hq => absurd hq (by omega), by rw [← h2]; rfl, ?_⟩
              · subst hb37
                exact headInvalid_malformed rest hinv
              · rw [← h1]
                rfl
          · have hprene : pre ≠ [] := fun hp => hv0 ((vt_nil_iff pre vals hvt).mp hp)
            have hpre3 : pre.length = 3 * vals.length := vt_length pre vals hvt
            have hvlen : 1 ≤ vals.length := by
              cases hvx : vals with
              | nil => exact absurd hvx hv0
              | cons v vs => simp
            obtain ⟨d1, r0, hdc⟩ : ∃ a c, decodeChunk (b :: rest) [] = (a, c) := ⟨_, _, rfl⟩
            rw [hdc] at hstep hseq hd1
            simp only at hstep hseq hd1
            rw [hd1] at hstep
            rw [if_neg hv0] at hstep
            have hslen : (b :: rest).length = pre.length + r0.length := by
              rw [hseq, List.length_append]
            have hr0len : r0.length ≤ n := by
              simp only [List.length_cons] at h hslen
              omega
            obtain ⟨ih1, ih2⟩ := ih r0 hr0len
            obtain ⟨hmal1, hmal2⟩ := vt_malformed pre vals r0 hvt
            constructor
            · intro out hout
              rw [hstep] at hout
              cases hrec : urldecodeFull r0 with
              | ok out2 =>
                rw [hrec] at hout
                cases hout
                rw [hseq, vt_spec_append pre vals r0 hvt, ih1 out2 hrec]
                rfl
              | error e =>
                obtain ⟨dd, rr⟩ := e
                rw [hrec] at hout
                exact Except.noConfusion hout
            · intro d r herr
              rw [hstep] at herr
              cases hrec : urldecodeFull r0 with
              | ok out2 =>
                rw [hrec] at herr
                exact Except.noConfusion herr
              | error e =>
                obtain ⟨dd, rr⟩ := e
                rw [hrec] at herr
                injection herr with hpair
                injection hpair with h1 h2
                obtain ⟨p, hp1, hp2, hp3, hp4⟩ := ih2 dd rr hrec
                refine ⟨pre.length + p, ?_, ?_, ?_, ?_⟩
                · rw [hseq, hmal2 p]
                  exact hp1
                · intro q hq
                  rw [hseq]
                  rcases Nat.lt_or_ge q pre.length with hq2 | hq2
                  · exact hmal1 q hq2
                  · obtain ⟨q2, rfl⟩ : ∃ q2, q = pre.length + q2 :=
                      ⟨q - pre.length, by omega⟩
                    rw [hmal2 q2]
                    exact hp2 q2 (by omega)
                · rw [hseq, List.drop_append, ← h2, hp3]
                · rw [hseq, List.take_append, vt_spec_append pre vals _ hvt, hp4, ← h1]
                  rfl
        · -- a nonempty safe run before the first percent sign
          have hiter : urldecodeIter (b :: rest) = (run, r2) := by
            rw [urldecodeIter_cons, hscan]
            rw [if_neg (by simpa using hA),
              if_pos (by simpa using hB)]
          rw [hiter] at hstep
          simp only at hstep
          rw [if_neg hB] at hstep
          have hslen : (b :: rest).length = run.length + r2.length := by
            rw [← hs_eq, List.length_append]
          have hrunlen : 1 ≤ run.length := by
            cases hrx : run with
            | nil => exact absurd hrx hB
            | cons v vs => simp
          have hr2len : r2.length ≤ n := by
            simp only [List.length_cons] at h hslen
            omega
          obtain ⟨ih1, ih2⟩ := ih r2 hr2len
          obtain ⟨hmal1, hmal2⟩ := malformedAt_append_no37 run r2 hno37run
          constructor
          · intro out hout
            rw [hstep] at hout
            cases hrec : urldecodeFull r2 with
            | ok out2 =>
              rw [hrec] at hout
              cases hout
              rw [← hs_eq, specUrldecode_append_no37 run r2 hno37run, ih1 out2 hrec]
              rfl
            | error e =>
              obtain ⟨dd, rr⟩ := e
              rw [hrec] at hout
              exact Except.noConfusion hout
          · intro d r herr
            rw [hstep] at herr
            cases hrec : urldecodeFull r2 with
            | ok out2 =>
              rw [hrec] at herr
              exact Except.noConfusion herr
            | error e =>
              obtain ⟨dd, rr⟩ := e
              rw [hrec] at herr
              injection herr with hpair
              injection hpair with h1 h2
              obtain ⟨p, hp1, hp2, hp3, hp4⟩ := ih2 dd rr hrec
              refine ⟨run.length + p, ?_, ?_, ?_, ?_⟩
              · rw [← hs_eq, hmal2 p]
                exact hp1
              · intro q hq
                rw [← hs_eq]
                rcases Nat.lt_or_ge q run.length with hq2 | hq2
                · exact hmal1 q hq2
                · obtain ⟨q2, rfl⟩ : ∃ q2, q = run.length + q2 :=
                    ⟨q - run.length, by omega⟩
                  rw [hmal2 q2]
                  exact hp2 q2 (by omega)
              · rw [← hs_eq, List.drop_append, ← h2, hp3]
              · rw [← hs_eq, List.take_append,
                  specUrldecode_append_no37 run _ hno37run, hp4, ← h1]
                rfl

theorem spec_some_no_malformed_aux (n : Nat) : ∀ (s out : List Nat) (p : Nat), s.length ≤ n →
    specUrldecode s = some out → malformedAt s p = false := by
  induction n with
  | zero =>
    intro s out p h _
    have hs : s = [] := List.length_eq_zero.mp (Nat.le_zero.mp h)
    subst hs
    exact malformedAt_nil p
  | succ n ih =>
    intro s out p h hspec
    cases s with
    | nil => exact malformedAt_nil p
    | cons b rest =>
      by_cases hb : b = 37
      · subst hb
        cases rest with
        | nil =>
          rw [specUrldecode.eq_def] at hspec
          dsimp only at hspec
          exact Option.noConfusion hspec
        | cons h1 rest1 =>
          cases rest1 with
          | nil =>
            rw [specUrldecode.eq_def] at hspec
            dsimp only at hspec
            exact Option.noConfusion hspec
          | cons l rest2 =>
            cases hh : hexVal h1 with
            | none =>
              rw [specUrldecode.eq_def] at hspec
              dsimp only at hspec
              rw [hh, if_pos (show ((37 : Nat) == 37) = true from rfl)] at hspec
              exact Option.noConfusion hspec
            | some hv =>
              cases hl : hexVal l with
              | none =>
                rw [specUrldecode.eq_def] at hspec
                dsimp only at hspec
                rw [hh, hl, if_pos (show ((37 : Nat) == 37) = true from rfl)] at hspec
                exact Option.noConfusion hspec
              | some lv =>
                rw [specUrldecode_triplet h1 l hv lv rest2 hh hl] at hspec
                obtain ⟨out2, hout2⟩ : ∃ out2, specUrldecode rest2 = some out2 := by
                  cases hr : specUrldecode rest2 with
                  | none => rw [hr] at hspec; exact Option.noConfusion hspec
                  | some o => exact ⟨o, rfl⟩
                match p with
                | 0 => exact malformedAt_zero_triplet h1 l hv lv rest2 hh hl
                | 1 =>
                  rw [malformedAt_cons]
                  exact malformedAt_zero_safe h1 (l :: rest2) (hexVal_ne37 h1 hv hh)
                | 2 =>
                  rw [malformedAt_cons, malformedAt_cons]
                  exact malformedAt_zero_safe l rest2 (hexVal_ne37 l lv hl)
                | p2 + 3 =>
                  rw [malformedAt_cons, malformedAt_cons, malformedAt_cons]
                  exact ih rest2 out2 p2 (by simp at h ⊢; omega) hout2
      · rw [specUrldecode_cons_safe b rest hb] at hspec
        obtain ⟨out2, hout2⟩ : ∃ out2, specUrldecode rest = some out2 := by
          cases hr : specUrldecode rest with
          | none => rw [hr] at hspec; exact Option.noConfusion hspec
          | some o => exact ⟨o, rfl⟩
        cases p with
        | zero => exact malformedAt_zero_safe b rest hb
        | succ p2 =>
          rw [malformedAt_cons]
          exact ih rest out2 p2 (by simp at h ⊢; omega) hout2

theorem spec_some_no_malformed (s out : List Nat) (p : Nat)
    (hspec : specUrldecode s = some out) : malformedAt s p = false :=
  spec_some_no_malformed_aux s.length s out p le_rfl hspec

/-- C9: percent-decoding fails exactly when the input contains a `%` not
followed by two valid hexadecimal digits; on failure the error carries
the undecoded remainder starting at the first such `%`, with all bytes
before that point already decoded and delivered (they decode to the
delivered output); on inputs with no malformed sequence decoding succeeds
and agrees with the reference decoder. -/
theorem c9_decode_error_contract (s : List Nat) :
    match urldecodeFull s with
    | .ok out => specUrldecode s = some out ∧ ∀ p, malformedAt s p = false
    | .error (d, r) =>
      ∃ p, malformedAt s p = true ∧ (∀ q, q < p → malformedAt s q = false) ∧
        r = s.drop p ∧ specUrldecode (s.take p) = some d := by
  obtain ⟨h1, h2⟩ := urldecodeFull_spec_aux s.length s le_rfl
  cases hu : urldecodeFull s with
  | ok out =>
    have hspec := h1 out hu
    exact ⟨hspec, fun p => spec_some_no_malformed s out p hspec⟩
  | error e =>
    obtain ⟨d, r⟩ := e
    exact h2 d r hu

theorem c9_decode_error_contract_witness :
    (match urldecodeFull (ascii "ab%zz") with
      | .ok out => specUrldecode (ascii "ab%zz") = some out ∧
          ∀ p, malformedAt (ascii "ab%zz") p = false
      | .error (d, r) =>
        ∃ p, malformedAt (ascii "ab%zz") p = true ∧
          (∀ q, q < p → malformedAt (ascii "ab%zz") q = false) ∧
          r = (ascii "ab%zz").drop p ∧
          specUrldecode ((ascii "ab%zz").take p) = some d) :=
  c9_decode_error_contract (ascii "ab%zz")

theorem encBytes_cons (b : Nat) (c : List Nat) :
    encBytes (b :: c) = encTriplet b ++ encBytes c := rfl

theorem urlencodeFull_nil : urlencodeFull [] = [] := by
  rw [urlencodeFull]
  rfl

theorem urlencodeFull_step (s : List Nat) (hs : s ≠ []) :
    urlencodeFull s = (urlencodeIter s).1 ++ urlencodeFull (urlencodeIter s).2 := by
  rw [urlencodeFull, dif_neg hs]

theorem urlencodeIter_cons (b : Nat) (rest : List Nat) :
    urlencodeIter (b :: rest) =
      if (safeSplit (b :: rest)).2.isEmpty then (b :: rest, [])
      else if ¬(safeSplit (b :: rest)).1.isEmpty then
        ((safeSplit (b :: rest)).1, (safeSplit (b :: rest)).2)
      else encodeChunk (b :: rest) [] := rfl

theorem encodeChunk_split : ∀ (rem enc : List Nat), rem ≠ [] →
    ∃ k, 1 ≤ k ∧ k ≤ rem.length ∧
      encodeChunk rem enc = (enc ++ encBytes (rem.take k), rem.drop k) := by
  intro rem
  induction rem with
  | nil => intro enc h; exact absurd rfl h
  | cons b rest ih =>
    intro enc _
    cases rest with
    | nil =>
      refine ⟨1, le_rfl, by simp, ?_⟩
      show encodeChunk [b] enc = _
      simp [encodeChunk, encBytes, encTriplet]
    | cons b2 rest2 =>
      by_cases hstop : ((enc ++ encTriplet b).length == 12 || isSafeByte b2) = true
      · refine ⟨1, le_rfl, by simp, ?_⟩
        show encodeChunk (b :: b2 :: rest2) enc = _
        simp only [encodeChunk, hstop, if_true]
        simp [encBytes, encTriplet]
      · obtain ⟨k2, hk1, hk2, heq⟩ := ih (enc ++ encTriplet b) (by simp)
        refine ⟨k2 + 1, by omega, by simp only [List.length_cons] at hk2 ⊢; omega, ?_⟩
        rw [encodeChunk.eq_def]
        dsimp only
        rw [if_neg hstop, heq]
        rw [List.take_succ_cons, List.drop_succ_cons, encBytes_cons, List.append_assoc]

theorem encBytes_vt (c : List Nat) :
    ValidTriplets (encBytes c) (c.map (fun b => b % 256)) := by
  induction c with
  | nil => exact ValidTriplets.nil
  | cons b t ih =>
    have hval : b / 16 % 16 * 16 + b % 16 = b % 256 := by omega
    have hc := ValidTriplets.cons (hexVal_hexHi b) (hexVal_hexLo b) ih
    rw [hval] at hc
    exact hc

theorem map_mod_eq_self (s : List Nat) (h : ∀ b ∈ s, b < 256) :
    s.map (fun b => b % 256) = s := by
  induction s with
  | nil => rfl
  | cons b t ih =>
    rw [List.map_cons, Nat.mod_eq_of_lt (h b (by simp)), ih fun x hx => h x (by simp [hx])]

theorem urlencodeFull_spec_aux (n : Nat) : ∀ s : List Nat, s.length ≤ n →
    specUrldecode (urlencodeFull s) = some (s.map (fun b => b % 256)) := by
  induction n with
  | zero =>
    intro s h
    have hs : s = [] := List.length_eq_zero.mp (Nat.le_zero.mp h)
    subst hs
    rw [urlencodeFull_nil]
    rfl
  | succ n ih =>
    intro s h
    by_cases hs : s = []
    · subst hs
      rw [urlencodeFull_nil]
      rfl
    · obtain ⟨b, rest, rfl⟩ : ∃ b rest, s = b :: rest := by
        cases s with
        | nil => exact absurd rfl hs
        | cons b rest => exact ⟨b, rest, rfl⟩
      have hstep := urlencodeFull_step (b :: rest) hs
      obtain ⟨run, r2, hscan⟩ : ∃ run r2, safeSplit (b :: rest) = (run, r2) := ⟨_, _, rfl⟩
      have hs_eq : run ++ r2 = b :: rest := by
        have := safeSplit_append (b :: rest)
        rw [hscan] at this
        exact this
      have hsafe : ∀ x ∈ run, isSafeByte x = true := by
        intro x hx
        exact safeSplit_run_safe (b :: rest) x (by rw [hscan]; exact hx)
      have hno37run : ∀ x ∈ run, x ≠ 37 := fun x hx => isSafeByte_ne37 x (hsafe x hx)
      have hrunmod : run.map (fun x => x % 256) = run :=
        map_mod_eq_self run fun x hx => isSafeByte_lt256 x (hsafe x hx)
      by_cases hA : r2 = []
      · subst hA
        rw [List.append_nil] at hs_eq
        have hiter : urlencodeIter (b :: rest) = (b :: rest, []) := by
          rw [urlencodeIter_cons, hscan]
          simp
        rw [hiter] at hstep
        simp only at hstep
        rw [urlencodeFull_nil, List.append_nil] at hstep
        rw [hstep, ← hs_eq, hrunmod]
        exact specUrldecode_self_no37 run hno37run
      · by_cases hB : run = []
        · subst hB
          rw [List.nil_append] at hs_eq
          have hiter : urlencodeIter (b :: rest) = encodeChunk (b :: rest) [] := by
            rw [urlencodeIter_cons, hscan]
            rw [if_neg (by simpa using hA), if_neg (by simp)]
          obtain ⟨k, hk1, hk2, hchunk⟩ := encodeChunk_split (b :: rest) [] hs
          rw [hiter, hchunk] at hstep
          simp only [List.nil_append] at hstep
          have hdroplen : ((b :: rest).drop k).length ≤ n := by
            rw [List.length_drop]
            simp only [List.length_cons] at h ⊢
            omega
          rw [hstep, vt_spec_append _ _ _ (encBytes_vt ((b :: rest).take k)),
            ih _ hdroplen]
          rw [Option.map_some']
          rw [← List.map_append, List.take_append_drop]
        · have hiter : urlencodeIter (b :: rest) = (run, r2) := by
            rw [urlencodeIter_cons, hscan]
            rw [if_neg (by simpa using hA), if_pos (by simpa using hB)]
          rw [hiter] at hstep
          simp only at hstep
          have hr2len : r2.length ≤ n := by
            have : run.length + r2.length = (b :: rest).length := by
              rw [← List.length_append, hs_eq]
            have hrun1 : 1 ≤ run.length := by
              cases hr : run with
              | nil => exact absurd hr hB
              | cons x xs => simp
            simp only [List.length_cons] at this h
            omega
          rw [hstep, specUrldecode_append_no37 run _ hno37run, ih r2 hr2len,
            Option.map_some']
          rw [← hs_eq, List.map_append, hrunmod]

/-- C8: percent-decoding the percent-encoding of any byte span gives back
exactly that span: `urldecode` applied to the concatenation of the chunks
produced by `urlencode` succeeds, and its output concatenates to the
original input. -/
theorem c8_roundtrip (s : List Nat) (h : ∀ b ∈ s, b < 256) :
    urldecodeFull (urlencodeFull s) = .ok s := by
  have hspec : specUrldecode (urlencodeFull s) = some (s.map (fun b => b % 256)) :=
    urlencodeFull_spec_aux s.length s le_rfl
  rw [map_mod_eq_self s h] at hspec
  obtain ⟨h1, h2⟩ := urldecodeFull_spec_aux (urlencodeFull s).length (urlencodeFull s) le_rfl
  cases hu : urldecodeFull (urlencodeFull s) with
  | ok out =>
    have hout := h1 out hu
    rw [hspec] at hout
    cases hout
    rfl
  | error e =>
    obtain ⟨d, r⟩ := e
    obtain ⟨p, hp1, _, _, _⟩ := h2 d r hu
    rw [spec_some_no_malformed (urlencodeFull s) s p hspec] at hp1
    exact Bool.noConfusion hp1

theorem c8_roundtrip_witness :
    (∀ b ∈ [72, 32, 255], b < 256) ∧
    urldecodeFull (urlencodeFull [72, 32, 255]) = .ok [72, 32, 255] :=
  ⟨by decide, c8_roundtrip [72, 32, 255] (by decide)⟩
